import Mathlib

/-!
# Verification of the PII redaction core

A shallow embedding, over `List Char` strings, of the PII
redaction/unredaction pipeline: checksum validators, the entity
reconciler, the positional redaction engine with windowed span rescue,
and the semantic (placeholder-token) redaction engine with its
redaction map.

Modelling conventions:
* JS strings are `List Char` (UTF-16 code units of the inputs we study
  are plain code points; all concrete inputs are ASCII).
* JS `number` offsets are `Nat` (detector offsets are non-negative);
  `String.prototype.slice` clamping is reproduced by truncated `Nat`
  subtraction.
* Confidence scores are exact rationals `ℚ`.  The source compares IEEE
  doubles; the comparisons performed by the code (`score >= 0.55`,
  `overlap/minSpan < 0.4`, …) agree with exact rational comparison for
  all realistic magnitudes, so threshold tests are modelled as rational
  comparisons (`5*overlap < 2*minSpan` for the `< 0.4` test).
* Runtime label strings are modelled as `String` (TypeScript union
  types are erased at runtime and the reconciler receives foreign
  vocabularies such as `PER`/`LOC`).
-/

/-! ## Basic JS string primitives over `List Char` -/

/-- The set of characters matched by the JS regexp class `\s`
(ASCII part plus NBSP; sufficient for the whitespace handling in the
sources, which only ever meet ASCII whitespace). -/
def jsIsSpace (c : Char) : Bool :=
  c = ' ' || c = '\t' || c = '\n' || c = '\r' || c = '\x0b' || c = '\x0c' || c = ' '

/-- ASCII lower-casing, the effect of `String.prototype.toLowerCase`
on the inputs under study. -/
def jsLower (c : Char) : Char :=
  if 'A' ≤ c ∧ c ≤ 'Z' then Char.ofNat (c.toNat + 32) else c

/-- ASCII upper-casing (`String.prototype.toUpperCase`). -/
def jsUpper (c : Char) : Char :=
  if 'a' ≤ c ∧ c ≤ 'z' then Char.ofNat (c.toNat - 32) else c

def lowerStr (s : List Char) : List Char := s.map jsLower

def upperStr (s : List Char) : List Char := s.map jsUpper

/-- `0`–`9`. -/
def isDigit (c : Char) : Bool := '0' ≤ c ∧ c ≤ '9'

/-- The numeric value of a digit character (`Number(ch)` on a digit). -/
def digitVal (c : Char) : Nat := c.toNat - '0'.toNat

/-- JS `s.replace(/\s+/g, '')`: drop every whitespace character. -/
def stripWs (s : List Char) : List Char := s.filter (fun c => ¬ jsIsSpace c)

/-- `String.prototype.slice` with non-negative, clamped indices:
`s.slice(a, b)` keeps positions `a ≤ i < b`. -/
def jsSlice (s : List Char) (a b : Nat) : List Char := (s.take b).drop a

/-- First index at which `needle` occurs in `hay`
(`String.prototype.indexOf`, `none` for `-1`). -/
def jsIndexOf (hay needle : List Char) : Option Nat :=
  match hay with
  | [] => if needle = [] then some 0 else none
  | _ :: rest =>
    if needle.isPrefixOf hay then some 0
    else (jsIndexOf rest needle).map (· + 1)

/-- `hay.includes(needle)`. -/
def jsIncludes (hay needle : List Char) : Bool := (jsIndexOf hay needle).isSome

/-! ## 4.1 Validators (`reconcile.ts`, second section) -/

/-- `isValidABN`: strip whitespace; require exactly 11 digits; subtract
1 from the leading digit; weight by `[10,1,3,5,7,9,11,13,15,17,19]`;
valid iff the sum is divisible by 89.  Direct model of the source. -/
def isValidABN (raw : List Char) : Bool :=
  let abn := stripWs raw
  if abn.length = 11 ∧ abn.all isDigit then
    let d : List Int := abn.map (fun c => (digitVal c : Int))
    let d : List Int :=
      match d with
      | [] => []
      | d0 :: rest => (d0 - 1) :: rest
    let w : List Int := [10, 1, 3, 5, 7, 9, 11, 13, 15, 17, 19]
    (List.zipWith (· * ·) d w).sum % 89 = 0
  else
    false

/-- The ABN weights named in the specification. -/
def abnWeights : List Int := [10, 1, 3, 5, 7, 9, 11, 13, 15, 17, 19]

/-- The specification's weighted digit sum: subtract 1 from the first
digit, then weight by `abnWeights`. -/
def abnWeightedSum (t : List Char) : Int :=
  match t.map (fun c => (digitVal c : Int)) with
  | [] => 0
  | d0 :: rest => (List.zipWith (· * ·) ((d0 - 1) :: rest) abnWeights).sum

/-- C3: `isValidABN` strips whitespace and accepts exactly the
11-digit strings whose weighted sum (first digit decremented, weights
`[10,1,3,5,7,9,11,13,15,17,19]`) is divisible by 89; in particular the
fixture `83 914 571 673` is valid and `12 345 678 901` is not. -/
theorem isValidABN_correct :
    (∀ s : List Char, isValidABN s = true ↔
      ((stripWs s).length = 11 ∧ (stripWs s).all isDigit = true ∧
        (89 : Int) ∣ abnWeightedSum (stripWs s))) ∧
    isValidABN ("83 914 571 673".toList) = true ∧
    isValidABN ("12 345 678 901".toList) = false := by
  refine ⟨fun s => ?_, by decide, by decide⟩
  by_cases h : (stripWs s).length = 11 ∧ (stripWs s).all isDigit = true
  · simp only [isValidABN, if_pos h, decide_eq_true_eq]
    cases hst : stripWs s with
    | nil => rw [hst] at h; simp at h
    | cons c rest =>
      rw [hst] at h
      simp only [abnWeights, abnWeightedSum, hst, List.map_cons]
      constructor
      · intro hmod
        exact ⟨h.1, h.2, Int.dvd_of_emod_eq_zero hmod⟩
      · intro hr
        exact Int.emod_eq_zero_of_dvd hr.2.2
  · simp only [isValidABN, if_neg h]
    constructor
    · intro hfalse; simp at hfalse
    · intro hr; exact absurd ⟨hr.1, hr.2.1⟩ h

/-! ## Data model (`types.ts`)

Runtime entities.  `label` and `source` are `String`s because the
TypeScript union types are erased at runtime and the reconciler
receives foreign label vocabularies (`PER`, `LOC`, …).  The source
field `end` is called `stop` here (`end` is reserved in Lean). -/

structure Entity where
  text : List Char
  label : String
  start : Nat
  stop : Nat
  score : Option ℚ
  source : String
deriving DecidableEq

/-! ## Regex submodels used by `normalizeEntity` (`reconcile.ts`) -/

/-- `[A-Za-z]`. -/
def isAlpha (c : Char) : Bool := ('a' ≤ c ∧ c ≤ 'z') ∨ ('A' ≤ c ∧ c ≤ 'Z')

/-- `A`–`Z` (the ASCII part of `\p{Lu}`, which is all the sources meet). -/
def isUpperAlpha (c : Char) : Bool := 'A' ≤ c ∧ c ≤ 'Z'

/-- JS `\w` / word-boundary character class `[A-Za-z0-9_]`. -/
def isWordChar (c : Char) : Bool := isAlpha c ∨ isDigit c ∨ c = '_'

/-- Whether `prev` (the character before the current position, `none`
at the string edge) counts as a word character for `\b`. -/
def isWordOpt : Option Char → Bool
  | none => false
  | some c => isWordChar c

/-- Case-insensitive prefix test (the `i` flag on ASCII). -/
def ciPrefix : List Char → List Char → Bool
  | [], _ => true
  | _ :: _, [] => false
  | a :: as, b :: bs => jsLower a = jsLower b && ciPrefix as bs

/-- `s.replace(/\s+/g, ' ')`: each maximal whitespace run becomes one
space.  `prevSpace` tracks whether the previous character was
whitespace (i.e. we are inside a run already emitted). -/
def collapseWsAux : Bool → List Char → List Char
  | _, [] => []
  | prevSpace, c :: rest =>
    if jsIsSpace c then
      if prevSpace then collapseWsAux true rest
      else ' ' :: collapseWsAux true rest
    else c :: collapseWsAux false rest

def collapseWs (s : List Char) : List Char := collapseWsAux false s

/-- `String.prototype.trim`. -/
def jsTrim (s : List Char) : List Char :=
  ((s.dropWhile jsIsSpace).reverse.dropWhile jsIsSpace).reverse

/-- One attempted match of `/(\b[A-Za-z]+)\s+Co\b/i` at the current
position (`prev` = preceding character).  The pattern is
backtracking-free here: `[A-Za-z]+` is followed by `\s+` and `\s+` by
a letter, so only the greedy split can succeed.  Returns the
replacement text (`'$1 Cowan'`) and the match length. -/
def coFixMatch (prev : Option Char) (s : List Char) : Option (List Char × Nat) :=
  if isWordOpt prev then none
  else
    let letters := s.takeWhile isAlpha
    if letters.isEmpty then none
    else
      let r1 := s.drop letters.length
      let sp := r1.takeWhile jsIsSpace
      if sp.isEmpty then none
      else
        match r1.drop sp.length with
        | c1 :: c2 :: r3 =>
          if jsLower c1 = 'c' ∧ jsLower c2 = 'o' ∧ ¬ isWordOpt r3.head? then
            some (letters ++ ' ' :: "Cowan".toList, letters.length + sp.length + 2)
          else none
        | _ => none

/-- Global scan for `t.replace(/(\b[A-Za-z]+)\s+Co\b/gi, '$1 Cowan')`.
After a match the scan resumes past the matched text of the original
string (JS `replace` semantics).  Structural recursion on a fuel
argument initialised to `s.length`; every step consumes at least one
character, so the fuel never runs out. -/
def coFixGo : Nat → Option Char → List Char → List Char
  | 0, _, s => s
  | fuel + 1, prev, s =>
    match s with
    | [] => []
    | c :: rest =>
      match coFixMatch prev s with
      | some (rep, len) =>
        rep ++ coFixGo fuel ((s.take len).getLast?) (rest.drop (len - 1))
      | none => c :: coFixGo fuel (some c) rest

def coFix (s : List Char) : List Char := coFixGo s.length none s

/-- Match a `\s+`-separated sequence of case-insensitive literal words
at the start of `s`, returning the matched length. -/
def seqMatchLen (s : List Char) : List (List Char) → Option Nat
  | [] => some 0
  | [w] => if ciPrefix w s then some w.length else none
  | w :: w2 :: ws =>
    if ciPrefix w s then
      let r1 := s.drop w.length
      let sp := r1.takeWhile jsIsSpace
      if sp.isEmpty then none
      else (seqMatchLen (r1.drop sp.length) (w2 :: ws)).map
        (fun n => w.length + sp.length + n)
    else none

/-- `.test` of `\b(alt₁|alt₂|…)\b` (case-insensitive) where every
alternative is a `\s+`-separated word sequence beginning and ending
with a letter: does any alternative match anywhere? -/
def wordSeqTestGo (alts : List (List (List Char))) :
    Option Char → List Char → Bool
  | _, [] => false
  | prev, c :: rest =>
    (¬ isWordOpt prev ∧
      alts.any (fun alt =>
        match seqMatchLen (c :: rest) alt with
        | some len => ¬ isWordOpt ((c :: rest).drop len).head?
        | none => false)) ||
    wordSeqTestGo alts (some c) rest

def wordSeqTest (alts : List (List (List Char))) (s : List Char) : Bool :=
  wordSeqTestGo alts none s

/-- The business-suffix alternatives of `reconcile.ts` line 30. -/
def businessAlts : List (List (List Char)) :=
  [["Pty".toList, "Ltd".toList], ["Ltd".toList], ["Trust".toList],
   ["Unit".toList, "Trust".toList],
   ["Superannuation".toList, "Fund".toList],
   ["Engineering".toList], ["Solutions".toList], ["Department".toList],
   ["Council".toList], ["Bank".toList]]

def hasBusinessSuffix (s : List Char) : Bool := wordSeqTest businessAlts s

/-- `/^\p{Lu}{2,}$/u.test(t)` (ASCII model). -/
def isAllCaps (s : List Char) : Bool := s.length ≥ 2 ∧ s.all isUpperAlpha

/-- The anchored fragment alternation of `reconcile.ts` line 37,
case-insensitive whole-string match. -/
def orgFragmentWords : List (List Char) :=
  ["australian".toList, "ethical".toList, "mitchell".toList,
   "lara".toList, "superannuation".toList, "details".toList,
   "client".toList, "fund".toList, "managed".toList, "super".toList,
   "life".toList, "tpd".toList, "income".toList, "protection".toList,
   "balance".toList, "option".toList]

def isOrgFragment (s : List Char) : Bool :=
  orgFragmentWords.any (fun w => lowerStr s = w)

/-- The honorific alternatives, in the source's alternation order. -/
def honAlts : List (List Char) :=
  ["Mr".toList, "Mrs".toList, "Ms".toList, "Dr".toList, "Prof".toList]

/-- One attempted match of `/\b(Mr|Mrs|Ms|Dr|Prof)\.?\s+/i` at the
current position: alternatives are tried in order; for each, the
optional dot is tried greedily and given back if `\s+` then fails.
Returns (`$1` as matched, full match length). -/
def honMatchAlt (s : List Char) : List (List Char) → Option (List Char × Nat)
  | [] => none
  | alt :: alts =>
    if ciPrefix alt s then
      let g1 := s.take alt.length
      let r := s.drop alt.length
      let withDot :=
        match r with
        | '.' :: r2 =>
          let sp := r2.takeWhile jsIsSpace
          if sp.isEmpty then none else some (g1, alt.length + 1 + sp.length)
        | _ => none
      match withDot with
      | some m => some m
      | none =>
        let sp := r.takeWhile jsIsSpace
        if sp.isEmpty then honMatchAlt s alts
        else some (g1, alt.length + sp.length)
    else honMatchAlt s alts

/-- First-match-only replacement for
`t.replace(/\b(Mr|Mrs|Ms|Dr|Prof)\.?\s+/i, '$1 ')`. -/
def honorificGo (prev : Option Char) (s : List Char) : List Char :=
  match s with
  | [] => []
  | c :: rest =>
    match (if isWordOpt prev then none else honMatchAlt s honAlts) with
    | some (g1, len) => g1 ++ ' ' :: s.drop len
    | none => c :: honorificGo (some c) rest

def honorificFix (s : List Char) : List Char := honorificGo none s

/-! ## The reconciler (`reconcile.ts`) -/

/-- `labelMap` of `reconcile.ts`. -/
def labelMap : List (String × String) :=
  [("PER", "PERSON"), ("PERSON", "PERSON"), ("ORG", "ORG"),
   ("ORGANIZATION", "ORG"), ("MISC", "ORG"), ("LOC", "ADDRESS"),
   ("LOCATION", "ADDRESS")]

def labelMapLookup (l : String) : String :=
  match labelMap.lookup l with
  | some m => m
  | none => l

/-- Exact rationals given in lowest terms by numerator and
denominator, built without `Rat` arithmetic so that they reduce inside
the kernel (`0.55 = ratq 11 20`, and so on). -/
def ratq (n : Int) (d : Nat) (h1 : d ≠ 0 := by decide)
    (h2 : n.natAbs.Coprime d := by decide) : ℚ := ⟨n, d, h1, h2⟩

/-- Per-label confidence thresholds `THRESH`. -/
def THRESH : List (String × ℚ) :=
  [("PERSON", ratq 11 20), ("ORG", ratq 7 10), ("ADDRESS", ratq 7 10),
   ("LOC", ratq 7 10)]

/-- `normalizeEntity`, returning both the function result and the
state of the caller's entity object after the call.  Line 48 of the
source (`e.label = labelMap[e.label] || e.label`) assigns to the
caller's object before spreading, so whenever control reaches it the
caller's `label` field is overwritten with the remapped label. -/
def normalizeEntityFull (e : Entity) : Option Entity × Entity :=
  let t0 := jsTrim (collapseWs e.text)
  if t0.length < 2 then (none, e)
  else
    let t1 := coFix t0
    if hasBusinessSuffix t1 then (some { e with label := "ORG", text := t1 }, e)
    else if e.label = "PERSON" ∧ isAllCaps t1 then (none, e)
    else if e.label = "ORG" ∧ isOrgFragment t1 then (none, e)
    else
      let t2 := honorificFix t1
      let newLabel := labelMapLookup e.label
      (some { e with label := newLabel, text := t2 },
       { e with label := newLabel })

def normalizeEntity (e : Entity) : Option Entity := (normalizeEntityFull e).1

/-- The caller's entity object after `normalizeEntity` ran on it. -/
def normalizeEntityCaller (e : Entity) : Entity := (normalizeEntityFull e).2

def filterByConfidence (e : Entity) : Bool :=
  if e.source = "regex" then true
  else
    let thr := match THRESH.lookup e.label with
      | some t => t
      | none => ratq 4 5
    e.score.getD 0 ≥ thr

/-- Stable insertion sort: `x` is placed before the first element not
strictly preceding it, so elements with equal keys keep their input
order (matching JS `Array.prototype.sort`, which is stable). -/
def stableInsert (lt : α → α → Bool) (x : α) : List α → List α
  | [] => [x]
  | y :: ys => if lt y x then y :: stableInsert lt x ys else x :: y :: ys

def stableSort (lt : α → α → Bool) : List α → List α
  | [] => []
  | x :: xs => stableInsert lt x (stableSort lt xs)

/-- `e.text.trim().split(/\s+/).length`: the number of maximal
non-whitespace runs of the trimmed text (1 for the empty string, as in
JS where `''.split(/\s+/)` is `['']`). -/
def countRunsAux : Bool → List Char → Nat
  | _, [] => 0
  | inRun, c :: rest =>
    if jsIsSpace c then countRunsAux false rest
    else if inRun then countRunsAux true rest
    else 1 + countRunsAux true rest

def countTokens (t : List Char) : Nat :=
  let tr := jsTrim t
  if tr.isEmpty then 1 else countRunsAux false tr

/-- The inner overlap-resolution scan of `reconcile` (lines 66–85):
walk the accepted list; `none` means the scan fell through with no
conflict (`e` will be appended); `some out'` means a conflict decided
the step, yielding the updated accepted list. -/
def rcScan (e : Entity) : List Entity → Option (List Entity)
  | [] => none
  | o :: rest =>
    let overlap := min e.stop o.stop - max e.start o.start
    let minSpan := min (e.stop - e.start) (o.stop - o.start)
    -- `overlap / Math.max(1, minSpan) < 0.4` as an exact rational test
    if 5 * overlap < 2 * max 1 minSpan then
      (rcScan e rest).map (o :: ·)
    else if e.label ≠ o.label ∧
        ((e.label = "PERSON" ∧ countTokens e.text ≥ 2) ∨
         (o.label = "PERSON" ∧ countTokens o.text ≥ 2)) then
      (rcScan e rest).map (o :: ·)
    else
      let eWins := (e.source = "regex" ∧ o.source = "model") ∨
        e.score.getD 0 > o.score.getD 0
      if eWins then some (e :: rest) else some (o :: rest)

def rcStep (out : List Entity) (e : Entity) : List Entity :=
  match rcScan e out with
  | some out' => out'
  | none => out ++ [e]

/-- De-dupe by `start:end:label:lowercased-text` keeping first
occurrences (the `seen` set of lines 90–96). -/
def spanKey (e : Entity) : Nat × Nat × String × List Char :=
  (e.start, e.stop, e.label, lowerStr e.text)

def dedupeBySpanKeyGo (seen : List (Nat × Nat × String × List Char)) :
    List Entity → List Entity
  | [] => []
  | e :: rest =>
    if spanKey e ∈ seen then dedupeBySpanKeyGo seen rest
    else e :: dedupeBySpanKeyGo (spanKey e :: seen) rest

def dedupeBySpanKey (l : List Entity) : List Entity := dedupeBySpanKeyGo [] l

/-- The PERSON-substring filter of lines 98–108.  (The source also
requires `o !== e`, which is implied: a strictly longer text is a
different object.) -/
def dropPersonSubstrings (filtered : List Entity) : List Entity :=
  filtered.filter (fun e =>
    if e.label = "PERSON" then
      ¬ filtered.any (fun o =>
        o.label = "PERSON" ∧
        jsIncludes (lowerStr o.text) (lowerStr e.text) ∧
        o.text.length > e.text.length)
    else true)

/-- The in-place ADDRESS collapse loop of lines 110–122.  `racc` holds
the already-settled output, reversed; a merge replaces its head and
the merged entity is re-examined against the next element, exactly
like the `splice`/`i--` loop. -/
def collapseAddrGo (racc : List Entity) : List Entity → List Entity
  | [] => racc.reverse
  | cur :: rest =>
    match racc with
    | [] => collapseAddrGo [cur] rest
    | prev :: racc2 =>
      if prev.label = "ADDRESS" ∧ cur.label = "ADDRESS" ∧
          cur.start - prev.stop < 5 then
        collapseAddrGo
          ({ prev with text := prev.text ++ ' ' :: cur.text, stop := cur.stop } :: racc2)
          rest
      else collapseAddrGo (cur :: prev :: racc2) rest

def collapseAddr (l : List Entity) : List Entity := collapseAddrGo [] l

/-- The final label+text de-duplication of lines 124–130. -/
def uniqueByLabelText (acc : List Entity) : List Entity → List Entity
  | [] => acc
  | e :: rest =>
    if acc.any (fun u => u.label = e.label ∧ u.text = e.text) then
      uniqueByLabelText acc rest
    else uniqueByLabelText (acc ++ [e]) rest

/-- `reconcile` (`reconcile.ts` lines 60–133). -/
def reconcile (entities : List Entity) : List Entity :=
  let norm := ((entities.map normalizeEntity).reduceOption).filter filterByConfidence
  let sorted := stableSort (fun a b => a.start < b.start) norm
  let out := sorted.foldl rcStep []
  let filtered := dedupeBySpanKey out
  let dedupedPersons := dropPersonSubstrings filtered
  let collapsed := collapseAddr dedupedPersons
  uniqueByLabelText [] collapsed

/-- The contents of the caller's entity array after `reconcile`: the
array itself is not reassigned, but `normalizeEntity` runs on each
element and may mutate its `label` field in place. -/
def reconcileCallerEntities (entities : List Entity) : List Entity :=
  entities.map normalizeEntityCaller

/-! ## C2 / C8: concrete reconciler inputs -/

/-- A checksum-valid ABN detection exactly as `detectStructured`
produces it: `source: 'regex'`, no `score` field. -/
def abnEnt : Entity :=
  { text := "83 914 571 673".toList, label := "ABN", start := 0, stop := 14,
    score := none, source := "regex" }

/-- An overlapping model detection with score 0.9. -/
def orgModelEnt : Entity :=
  { text := "914 571".toList, label := "ORG", start := 3, stop := 10,
    score := some (ratq 9 10), source := "model" }

/-- C2: at a true conflict (overlap ratio 1 ≥ 0.4, no multi-token
PERSON on either side, one `regex` and one `model` entity), the
reconciler keeps the *model* entity and drops the regex one: Rule C's
regex preference (`e.source === 'regex' && o.source === 'model'`) only
fires when the regex entity is the incoming one, and the score
comparison `(e.score ?? 0) > (o.score ?? 0)` treats the score-less
regex entity as 0.  This contradicts the claim (and the source's own
comments at lines 59 and 82 of `reconcile.ts`). -/
theorem reconcile_drops_regex_for_model :
    reconcile [abnEnt, orgModelEnt] = [orgModelEnt] ∧
    abnEnt.source = "regex" ∧ orgModelEnt.source = "model" ∧
    -- the overlap-over-shorter-span ratio is ≥ 0.4 …
    ¬ (5 * (min abnEnt.stop orgModelEnt.stop - max abnEnt.start orgModelEnt.start)
        < 2 * max 1 (min (abnEnt.stop - abnEnt.start) (orgModelEnt.stop - orgModelEnt.start))) ∧
    -- … and neither side is a PERSON
    abnEnt.label ≠ "PERSON" ∧ orgModelEnt.label ≠ "PERSON" := by
  refine ⟨by decide, rfl, rfl, by decide, by decide, by decide⟩

/-- A model detection with a foreign label vocabulary (`LOC` is both a
member of the runtime `Label` union and a key of `labelMap`). -/
def locEx : Entity :=
  { text := "Sydney Road".toList, label := "LOC", start := 0, stop := 11,
    score := some (ratq 9 10), source := "model" }

/-- C8: `normalizeEntity` (hence `reconcile`, which maps it over the
caller's list) mutates the caller-owned entity in place: line 48 of
`reconcile.ts` assigns the remapped label to the caller's object
before spreading, so a `LOC` entity's `label` field is overwritten
with `ADDRESS`. -/
theorem reconcile_mutates_caller_entity :
    normalizeEntityCaller locEx ≠ locEx ∧
    (normalizeEntityCaller locEx).label = "ADDRESS" ∧
    locEx.label = "LOC" ∧
    reconcileCallerEntities [locEx] ≠ [locEx] := by
  refine ⟨by decide, by decide, rfl, by decide⟩

/-! ## C7: no PERSON entity is a substring of a longer PERSON entity -/

/-- A violation witness for C7: some PERSON entity of `l` whose
lowercased text is a substring of the text of a strictly longer PERSON
entity of `l`. -/
def personSubViolation (l : List Entity) : Bool :=
  l.any (fun e => e.label = "PERSON" ∧ l.any (fun o =>
    o.label = "PERSON" ∧ o.text.length > e.text.length ∧
    jsIncludes (lowerStr o.text) (lowerStr e.text)))

/-- Elements of `uniqueByLabelText acc l` come from `acc` or from `l`. -/
theorem mem_uniqueByLabelText {e : Entity} :
    ∀ (l acc : List Entity), e ∈ uniqueByLabelText acc l → e ∈ acc ∨ e ∈ l := by
  intro l
  induction l with
  | nil => intro acc h; exact Or.inl h
  | cons x rest ih =>
    intro acc h
    simp only [uniqueByLabelText] at h
    split at h
    · rcases ih _ h with h' | h'
      · exact Or.inl h'
      · exact Or.inr (List.mem_cons_of_mem _ h')
    · rcases ih _ h with h' | h'
      · rcases List.mem_append.mp h' with h'' | h''
        · exact Or.inl h''
        · exact Or.inr (by simp at h''; simp [h''])
      · exact Or.inr (List.mem_cons_of_mem _ h')

/-- Elements of the ADDRESS-collapse output come from the input unless
they are (merged) ADDRESS entities. -/
theorem mem_collapseAddrGo {e : Entity} :
    ∀ (l racc : List Entity), e ∈ collapseAddrGo racc l →
      e ∈ racc ∨ e ∈ l ∨ e.label = "ADDRESS" := by
  intro l
  induction l with
  | nil =>
    intro racc h
    simp only [collapseAddrGo, List.mem_reverse] at h
    exact Or.inl h
  | cons cur rest ih =>
    intro racc h
    match racc with
    | [] =>
      simp only [collapseAddrGo] at h
      rcases ih _ h with h' | h' | h'
      · simp at h'; simp [h']
      · exact Or.inr (Or.inl (List.mem_cons_of_mem _ h'))
      · exact Or.inr (Or.inr h')
    | prev :: racc2 =>
      simp only [collapseAddrGo] at h
      split at h
      · rename_i hcond
        rcases ih _ h with h' | h' | h'
        · rcases List.mem_cons.mp h' with h'' | h''
          · subst h''; exact Or.inr (Or.inr hcond.1)
          · exact Or.inl (List.mem_cons_of_mem _ h'')
        · exact Or.inr (Or.inl (List.mem_cons_of_mem _ h'))
        · exact Or.inr (Or.inr h')
      · rcases ih _ h with h' | h' | h'
        · rcases List.mem_cons.mp h' with h'' | h''
          · subst h''; exact Or.inr (Or.inl (List.mem_cons_self _ _))
          · exact Or.inl h''
        · exact Or.inr (Or.inl (List.mem_cons_of_mem _ h'))
        · exact Or.inr (Or.inr h')

/-- The three final stages of `reconcile` preserve the PERSON
de-duplication established by `dropPersonSubstrings`. -/
theorem personSubViolation_final (fl : List Entity) :
    personSubViolation
      (uniqueByLabelText [] (collapseAddr (dropPersonSubstrings fl))) = false := by
  set final := uniqueByLabelText [] (collapseAddr (dropPersonSubstrings fl)) with hfinal
  rw [Bool.eq_false_iff]
  intro hviol
  simp only [personSubViolation, List.any_eq_true, decide_eq_true_eq,
    Bool.and_eq_true, decide_eq_true_eq] at hviol
  obtain ⟨e, he, heP, o, ho, hoP, holen, hoinc⟩ := hviol
  -- both e and o are PERSON entities, hence come from `dropPersonSubstrings fl`
  have hmem : ∀ x : Entity, x ∈ final → x.label = "PERSON" →
      x ∈ dropPersonSubstrings fl := by
    intro x hx hxP
    rcases mem_uniqueByLabelText _ _ hx with h | h
    · simp at h
    · rcases mem_collapseAddrGo _ _ h with h' | h' | h'
      · simp at h'
      · exact h'
      · rw [hxP] at h'; simp at h'
  have he' := hmem e he heP
  have ho' := hmem o ho hoP
  -- membership in the filter gives both the base membership and the predicate
  have heflt := List.mem_filter.mp he'
  have hoflt := List.mem_filter.mp ho'
  have hpred := heflt.2
  rw [if_pos heP] at hpred
  simp only [decide_eq_true_eq] at hpred
  exact hpred (by
    simp only [List.any_eq_true, decide_eq_true_eq, Bool.and_eq_true]
    exact ⟨o, hoflt.1, by simp [hoP, hoinc, holen]⟩)

/-- C7: the entity list returned by `reconcile` never contains a
PERSON entity whose lowercased text is a substring of the text of a
strictly longer PERSON entity also in the list (lines 98–108 of
`reconcile.ts` filter such entities, and the later stages only merge
ADDRESS entities or drop elements). -/
theorem reconcile_no_person_substring (es : List Entity) :
    personSubViolation (reconcile es) = false := by
  unfold reconcile
  exact personSubViolation_final _

/-! ## Semantic-mode data model (`semanticTypes.ts`, `semanticUtils.ts`,
`semanticMap.ts`) -/

/-- A semantic-mode entity (`semanticTypes.ts`): only `text` and
`label` are read by the semantic engine (the optional offsets are
never used by it). -/
structure SemEntity where
  text : List Char
  label : String
deriving DecidableEq

/-- A `RedactionMapEntry`.  `first`/`last` are `Option`s: they exist
only on PERSON entries (`'first' in entry` in the source). -/
structure RedactionEntry where
  label : String
  full : List Char
  first : Option (List Char)
  last : Option (List Char)
  canonical : List Char
deriving DecidableEq

/-- A `RedactionMap`: key–entry pairs in insertion order (JS object
with non-numeric string keys). -/
abbrev RedactionMap := List (String × RedactionEntry)

/-- `[a-z0-9]`. -/
def isLowerAlnum (c : Char) : Bool := ('a' ≤ c ∧ c ≤ 'z') ∨ isDigit c

/-- Replace each maximal run of characters satisfying `p` by a single
space (the shape of `.replace(/[^a-z0-9]+/g, ' ')` and
`.replace(/\s+/g, ' ')`). -/
def runsToSpaceAux (p : Char → Bool) : Bool → List Char → List Char
  | _, [] => []
  | inRun, c :: rest =>
    if p c then
      if inRun then runsToSpaceAux p true rest
      else ' ' :: runsToSpaceAux p true rest
    else c :: runsToSpaceAux p false rest

def runsToSpace (p : Char → Bool) (s : List Char) : List Char :=
  runsToSpaceAux p false s

/-- `normalizeForKey` (`semanticUtils.ts`): NFKD, strip combining
marks U+0300–U+036F, lower-case, squash non-alphanumeric runs to one
space, trim, squash whitespace.  NFKD is modelled as the identity on
code points: the inputs under study are ASCII, where NFKD is the
identity; precomposed accented letters are treated as opaque. -/
def normalizeForKey (s : List Char) : List Char :=
  let s1 := s.filter (fun c => ¬ ('̀' ≤ c ∧ c ≤ 'ͯ'))
  let s2 := s1.map jsLower
  let s3 := runsToSpace (fun c => ¬ isLowerAlnum c) s2
  runsToSpace jsIsSpace (jsTrim s3)

/-- The djb2 loop of `stableId`: `h = ((h << 5) + h) + code; h |= 0`,
which on 32-bit residues is `h ↦ (33·h + code) mod 2³²`. -/
def djb2 (s : List Char) : Nat :=
  s.foldl (fun h c => (33 * h + c.toNat) % 4294967296) 5381

/-- `(h >>> 0).toString(16).toUpperCase()`. -/
def hexUpper (n : Nat) : List Char := (Nat.toDigits 16 n).map jsUpper

/-- `stableId` (`semanticUtils.ts`): the first `max 2 len` upper-case
hex digits of the djb2 hash. -/
def stableId (input : List Char) (len : Nat) : List Char :=
  (hexUpper (djb2 input)).take (max 2 len)

/-- Split a (trimmed) string into its maximal non-whitespace runs;
`''.split(/\s+/)` is `['']` in JS, hence the empty-string case. -/
def splitNonWsAux (cur : List Char) : List Char → List (List Char)
  | [] => if cur.isEmpty then [] else [cur.reverse]
  | c :: rest =>
    if jsIsSpace c then
      if cur.isEmpty then splitNonWsAux [] rest
      else cur.reverse :: splitNonWsAux [] rest
    else splitNonWsAux (c :: cur) rest

def jsSplitWs (t : List Char) : List (List Char) :=
  if t.isEmpty then [[]] else splitNonWsAux [] t

/-- `buildRedactionEntry` (`semanticMap.ts`). -/
def buildRedactionEntry (text : List Char) (label : String)
    (canonical : List Char) : RedactionEntry :=
  if label = "PERSON" then
    let parts := jsSplitWs (jsTrim text)
    let first := parts.headD text
    let last := if parts.length > 1 then List.intercalate [' '] parts.tail else []
    { label := "PERSON", full := text, first := some first, last := some last,
      canonical := canonical }
  else
    { label := label, full := text, first := none, last := none,
      canonical := canonical }

/-- The ID component of a redaction-map key: derived from the
normalized entity text only. -/
def entityId (e : SemEntity) : List Char := stableId (normalizeForKey e.text) 6

/-- The full key `` `${e.label}_${id}` ``. -/
def entityKey (e : SemEntity) : String := e.label ++ "_" ++ String.mk (entityId e)

/-- `createRedactionMap` (`semanticMap.ts`): insertion-ordered map,
first entity wins for an existing key. -/
def createRedactionMap (entities : List SemEntity) : RedactionMap :=
  entities.foldl (fun map e =>
    if (List.lookup (entityKey e) map).isSome then map
    else map ++ [(entityKey e,
      buildRedactionEntry e.text e.label (normalizeForKey e.text))]) []

/-! ## C9: key structure of `createRedactionMap` -/

def semJohnPerson : SemEntity := ⟨"John".toList, "PERSON"⟩

def semJohnOrg : SemEntity := ⟨"John".toList, "ORG"⟩

/-- C9 counterexample: two occurrences of the same text detected under
different labels do *not* collapse to one key/entry — the key is
`` `${LABEL}_${ID}` ``, so the same value produces `PERSON_7C9915` and
`ORG_7C9915`: one entry per label, sharing only the ID component. -/
theorem createRedactionMap_label_splits_entries :
    normalizeForKey semJohnPerson.text = normalizeForKey semJohnOrg.text ∧
    entityId semJohnPerson = entityId semJohnOrg ∧
    entityKey semJohnPerson ≠ entityKey semJohnOrg ∧
    (createRedactionMap [semJohnPerson, semJohnOrg]).length = 2 := by
  refine ⟨by decide, by decide, by decide, by decide⟩

/-- If `lookup k` misses, no pair of the list has key `k`. -/
theorem lookup_none_keys {α β : Type} [BEq α] [LawfulBEq α] {k : α} :
    ∀ {l : List (α × β)}, List.lookup k l = none → ∀ p ∈ l, p.1 ≠ k := by
  intro l
  induction l with
  | nil => intro _ p hp; cases hp
  | cons x xs ih =>
    intro h p hp
    have hx : (k == x.1) = false := by
      cases hbeq : (k == x.1) with
      | false => rfl
      | true => rw [List.lookup, hbeq] at h; cases h
    rw [List.lookup, hx] at h
    rcases List.mem_cons.mp hp with h' | h'
    · subst h'
      intro hk
      rw [hk] at hx
      simp at hx
    · exact ih h p h'

/-- Each `createRedactionMap` step preserves key distinctness. -/
theorem createRedactionMap_step_pairwise :
    ∀ (es : List SemEntity) (map : RedactionMap),
      map.Pairwise (fun a b => a.1 ≠ b.1) →
      (es.foldl (fun map e =>
        if (List.lookup (entityKey e) map).isSome then map
        else map ++ [(entityKey e,
          buildRedactionEntry e.text e.label (normalizeForKey e.text))]) map).Pairwise
        (fun a b => a.1 ≠ b.1) := by
  intro es
  induction es with
  | nil => intro map h; exact h
  | cons e rest ih =>
    intro map h
    simp only [List.foldl_cons]
    apply ih
    cases hlk : (List.lookup (entityKey e) map).isSome with
    | true => simpa [hlk] using h
    | false =>
      simp only [hlk, if_false, Bool.false_eq_true]
      rw [List.pairwise_append]
      refine ⟨h, List.pairwise_singleton _ _, ?_⟩
      intro a ha b hb
      simp only [List.mem_singleton] at hb
      subst hb
      exact lookup_none_keys (Option.not_isSome_iff_eq_none.mp (by simp [hlk])) a ha

/-- C9 (amended): the ID component of a key is derived from the
normalized entity text only — texts with equal normalizations yield
equal IDs, whatever the labels; the map never holds two entries with
the same key; and entities agreeing on both label and normalized text
produce the same key, hence share a single entry.  (Entities with
equal texts but different labels produce distinct keys — see the
counterexample.) -/
theorem createRedactionMap_key_structure :
    (∀ e1 e2 : SemEntity, normalizeForKey e1.text = normalizeForKey e2.text →
      entityId e1 = entityId e2) ∧
    (∀ es : List SemEntity,
      (createRedactionMap es).Pairwise (fun a b => a.1 ≠ b.1)) ∧
    (∀ e1 e2 : SemEntity, e1.label = e2.label →
      normalizeForKey e1.text = normalizeForKey e2.text →
      entityKey e1 = entityKey e2) := by
  refine ⟨fun e1 e2 h => ?_, fun es => ?_, fun e1 e2 hl h => ?_⟩
  · simp [entityId, h]
  · exact createRedactionMap_step_pairwise es [] (List.Pairwise.nil)
  · simp [entityKey, entityId, hl, h]

/-- Witness for `createRedactionMap_key_structure` at concrete inputs:
`"John"`/PERSON and `"john!"`/ORG normalize alike, so their IDs agree;
`"John"`/PERSON and `" John "`/PERSON share one key. -/
theorem createRedactionMap_key_structure_witness :
    entityId semJohnPerson = entityId ⟨"john!".toList, "ORG"⟩ ∧
    entityKey semJohnPerson = entityKey ⟨" John ".toList, "PERSON"⟩ :=
  ⟨createRedactionMap_key_structure.1 _ _ (by decide),
   createRedactionMap_key_structure.2.2 _ _ rfl (by decide)⟩

/-! ## Positional redaction with span rescue (`redact.ts`) -/

/-- `rescueSpan` (`redact.ts` lines 7–30): keep an exactly-matching
span; otherwise search the window
`doc.slice(max(0, start-w), min(doc.length, end+w))` for the first
occurrence of the text. -/
def rescueSpan (doc : List Char) (start stop : Nat) (text : List Char)
    (windowSize : Nat) : Option (Nat × Nat) :=
  if jsSlice doc start stop = text then some (start, stop)
  else
    let left := start - windowSize
    let right := min doc.length (stop + windowSize)
    let hood := jsSlice doc left right
    match jsIndexOf hood text with
    | some idx => some (left + idx, left + idx + text.length)
    | none => none

/-- One iteration of the `redactText` loop (`redact.ts` lines 44–59):
rescue, sanity-check the span against the current output, then either
skip or splice in the placeholder. -/
def redactStep (getPlaceholder : Entity → List Char) (output : List Char)
    (e : Entity) : List Char :=
  let fixed := rescueSpan output e.start e.stop e.text 96
  let start := match fixed with | some (s, _) => s | none => e.start
  let stop := match fixed with | some (_, t) => t | none => e.stop
  if jsSlice output start stop = e.text then
    jsSlice output 0 start ++ getPlaceholder e ++ output.drop stop
  else output

/-- `redactText` (`redact.ts` lines 36–62). -/
def redactText (text : List Char) (entities : List Entity)
    (getPlaceholder : Entity → List Char) : List Char :=
  entities.foldl (redactStep getPlaceholder) text

/-! ## C4: the frame property of positional redaction -/

/-- The per-entity behaviour positional redaction is allowed to have:
each entity either is skipped — exactly when the sanity check
`output.slice(start, end) !== e.text` fails for its (rescued) span —
leaving the document untouched, or has some span whose content is
exactly its text replaced by its placeholder, every character outside
that span being kept unchanged and in order. -/
inductive RedactSteps (ph : Entity → List Char) :
    List Entity → List Char → List Char → Prop
  | nil (out : List Char) : RedactSteps ph [] out out
  | skip (e : Entity) (es : List Entity) (out out' : List Char)
      (hmismatch :
        (match rescueSpan out e.start e.stop e.text 96 with
         | some (s, t) => jsSlice out s t
         | none => jsSlice out e.start e.stop) ≠ e.text)
      (hrest : RedactSteps ph es out out') :
      RedactSteps ph (e :: es) out out'
  | replace (e : Entity) (es : List Entity) (out out' : List Char)
      (s t : Nat)
      (hspan : jsSlice out s t = e.text)
      (hrest : RedactSteps ph es (out.take s ++ ph e ++ out.drop t) out') :
      RedactSteps ph (e :: es) out out'

/-- C4: `redactText` performs exactly a sequence of such steps: every
entity is either skipped under the sanity-check failure or has exactly
its (rescued) span — whose content equals its text — replaced by its
placeholder, the rest of the document passing through unchanged. -/
theorem redactText_frame (text : List Char) (es : List Entity)
    (ph : Entity → List Char) : RedactSteps ph es text (redactText text es ph) := by
  induction es generalizing text with
  | nil => exact RedactSteps.nil text
  | cons e rest ih =>
    have hfold : redactText text (e :: rest) ph
        = redactText (redactStep ph text e) rest ph := rfl
    rw [hfold]
    by_cases hok :
        (match rescueSpan text e.start e.stop e.text 96 with
         | some (s, t) => jsSlice text s t
         | none => jsSlice text e.start e.stop) = e.text
    · rcases hrs : rescueSpan text e.start e.stop e.text 96 with _ | ⟨s, t⟩
      · rw [hrs] at hok
        refine RedactSteps.replace e rest text _ e.start e.stop hok ?_
        have hstep : redactStep ph text e
            = text.take e.start ++ ph e ++ text.drop e.stop := by
          simp only [redactStep, hrs, jsSlice, List.drop_zero]
          rw [if_pos (by simpa [jsSlice] using hok)]
        rw [← hstep]
        exact ih _
      · rw [hrs] at hok
        refine RedactSteps.replace e rest text _ s t hok ?_
        have hstep : redactStep ph text e
            = text.take s ++ ph e ++ text.drop t := by
          simp only [redactStep, hrs, jsSlice, List.drop_zero]
          rw [if_pos (by simpa [jsSlice] using hok)]
        rw [← hstep]
        exact ih _
    · refine RedactSteps.skip e rest text _ hok ?_
      have hstep : redactStep ph text e = text := by
        rcases hrs : rescueSpan text e.start e.stop e.text 96 with _ | ⟨s, t⟩ <;>
          rw [hrs] at hok <;> simp only [redactStep, hrs, if_neg hok]
      rw [hstep]
      exact ih _

/-! ## C5: windowed span rescue -/

theorem jsSlice_eq_drop_take (s : List Char) (a b : Nat) :
    jsSlice s a b = (s.drop a).take (b - a) := by
  simp only [jsSlice]
  exact List.drop_take b a s

theorem length_jsSlice (s : List Char) (a b : Nat) :
    (jsSlice s a b).length = min b s.length - a := by
  simp [jsSlice, List.length_drop, List.length_take]

theorem jsSlice_drop (doc : List Char) (L R k : Nat) :
    (jsSlice doc L R).drop k = (doc.drop (L + k)).take (R - L - k) := by
  simp only [jsSlice]
  rw [List.drop_drop, List.drop_take]
  congr 1
  omega

/-- A hit of `jsIndexOf` is a prefix occurrence. -/
theorem jsIndexOf_some {needle : List Char} :
    ∀ {hay : List Char} {i : Nat}, jsIndexOf hay needle = some i →
      needle.isPrefixOf (hay.drop i) = true := by
  intro hay
  induction hay with
  | nil =>
    intro i h
    simp only [jsIndexOf] at h
    split at h
    · rename_i hn
      cases h
      simp [hn, List.isPrefixOf]
    · cases h
  | cons c rest ih =>
    intro i h
    simp only [jsIndexOf] at h
    split at h
    · rename_i hpre
      cases h
      simpa using hpre
    · rcases Option.map_eq_some'.mp h with ⟨j, hj, hij⟩
      subst hij
      simpa using ih hj

/-- A prefix occurrence anywhere makes `jsIndexOf` hit. -/
theorem jsIndexOf_isSome_of_prefix {needle : List Char} :
    ∀ {hay : List Char} (i : Nat),
      needle.isPrefixOf (hay.drop i) = true → (jsIndexOf hay needle).isSome := by
  intro hay
  induction hay with
  | nil =>
    intro i h
    simp only [List.drop_nil] at h
    have : needle = [] := by
      cases needle with
      | nil => rfl
      | cons a as => simp [List.isPrefixOf] at h
    simp [jsIndexOf, this]
  | cons c rest ih =>
    intro i h
    match i with
    | 0 =>
      simp only [List.drop_zero] at h
      simp [jsIndexOf, h]
    | i + 1 =>
      simp only [List.drop_succ_cons] at h
      by_cases hpre : needle.isPrefixOf (c :: rest) = true
      · simp [jsIndexOf, hpre]
      · have := ih i h
        simp only [jsIndexOf]
        rw [if_neg hpre]
        simpa using this

/-- From a prefix occurrence at offset `idx` of the window
`doc.slice(L, R)` (with `R ≤ doc.length`), the corresponding document
slice equals the text. -/
theorem hood_prefix_slice {doc text : List Char} {L R idx : Nat}
    (hR : R ≤ doc.length)
    (hpre : text <+: (jsSlice doc L R).drop idx) :
    jsSlice doc (L + idx) (L + idx + text.length) = text ∧
    text.length ≤ R - L - idx := by
  have hlenhood : (jsSlice doc L R).length = R - L := by
    rw [length_jsSlice]; omega
  have hlen : text.length ≤ R - L - idx := by
    have := hpre.length_le
    rw [List.length_drop, hlenhood] at this
    omega
  refine ⟨?_, hlen⟩
  have heq := List.prefix_iff_eq_take.mp hpre
  rw [jsSlice_drop, List.take_take] at heq
  have hmin : min text.length (R - L - idx) = text.length := by omega
  rw [hmin] at heq
  rw [jsSlice_eq_drop_take]
  have h2 : L + idx + text.length - (L + idx) = text.length := by omega
  rw [h2]
  exact heq.symm

/-- Conversely, an in-window occurrence is a prefix occurrence of the
window at the translated offset. -/
theorem occurrence_prefix_hood {doc text : List Char} {L R i : Nat}
    (hLi : L ≤ i) (hlen : i + text.length ≤ R)
    (hocc : jsSlice doc i (i + text.length) = text) :
    text.isPrefixOf ((jsSlice doc L R).drop (i - L)) = true := by
  rw [List.isPrefixOf_iff_prefix, List.prefix_iff_eq_take]
  rw [jsSlice_drop]
  have h1 : L + (i - L) = i := by omega
  rw [h1, List.take_take]
  have hmin : min text.length (R - L - (i - L)) = text.length := by omega
  rw [hmin]
  rw [jsSlice_eq_drop_take] at hocc
  have h2 : i + text.length - i = text.length := by omega
  rw [h2] at hocc
  exact hocc.symm

/-- C5: if the entity's exact text occurs wholly inside the search
window `[start−96, min(doc.length, end+96))`, `rescueSpan` returns
offsets whose slice of the document is exactly the text, and the
redaction step replaces exactly that span; if the (nonempty) text does
not occur in the window, `rescueSpan` gives up and the redaction step
leaves the document unchanged. -/
theorem rescueSpan_window (ph : Entity → List Char) (doc : List Char) (e : Entity) :
    ((∃ i, e.start - 96 ≤ i ∧
        i + e.text.length ≤ min doc.length (e.stop + 96) ∧
        jsSlice doc i (i + e.text.length) = e.text) →
      ∃ s t, rescueSpan doc e.start e.stop e.text 96 = some (s, t) ∧
        jsSlice doc s t = e.text ∧
        redactStep ph doc e = doc.take s ++ ph e ++ doc.drop t) ∧
    (e.text ≠ [] →
      (¬ ∃ i, e.start - 96 ≤ i ∧
        i + e.text.length ≤ min doc.length (e.stop + 96) ∧
        jsSlice doc i (i + e.text.length) = e.text) →
      rescueSpan doc e.start e.stop e.text 96 = none ∧
      redactStep ph doc e = doc) := by
  constructor
  · rintro ⟨i, hi1, hi2, hi3⟩
    by_cases hexact : jsSlice doc e.start e.stop = e.text
    · refine ⟨e.start, e.stop, ?_, hexact, ?_⟩
      · simp [rescueSpan, hexact]
      · simp only [redactStep, rescueSpan, if_pos hexact]
        simp [jsSlice]
    · have hload := occurrence_prefix_hood (L := e.start - 96)
        (R := min doc.length (e.stop + 96)) (by omega) hi2 hi3
      have hsome := jsIndexOf_isSome_of_prefix _ hload
      rcases hidx : jsIndexOf
          (jsSlice doc (e.start - 96) (min doc.length (e.stop + 96))) e.text
        with _ | idx
      · rw [hidx] at hsome; cases hsome
      · have hpre := jsIndexOf_some hidx
        rw [List.isPrefixOf_iff_prefix] at hpre
        have hslice := (hood_prefix_slice (by omega) hpre).1
        refine ⟨e.start - 96 + idx, e.start - 96 + idx + e.text.length, ?_,
          hslice, ?_⟩
        · simp only [rescueSpan, if_neg hexact, hidx]
        · simp only [redactStep, rescueSpan, if_neg hexact, hidx]
          rw [if_pos hslice]
          simp [jsSlice]
  · intro hne hno
    have hlen1 : 1 ≤ e.text.length := List.length_pos.mpr hne
    have hexact : ¬ jsSlice doc e.start e.stop = e.text := by
      intro hexact
      apply hno
      have hlentext : e.text.length = min e.stop doc.length - e.start := by
        rw [← hexact, length_jsSlice]
      refine ⟨e.start, by omega, by omega, ?_⟩
      have hfit : e.text.length ≤ e.stop - e.start := by omega
      have hc := congrArg (List.take e.text.length) hexact
      rw [jsSlice_eq_drop_take, List.take_take] at hc
      have hmin : min e.text.length (e.stop - e.start) = e.text.length := by omega
      rw [hmin, List.take_length] at hc
      rw [jsSlice_eq_drop_take]
      have h2 : e.start + e.text.length - e.start = e.text.length := by omega
      rw [h2]
      exact hc
    have hnone : jsIndexOf
        (jsSlice doc (e.start - 96) (min doc.length (e.stop + 96))) e.text = none := by
      rcases hidx : jsIndexOf
          (jsSlice doc (e.start - 96) (min doc.length (e.stop + 96))) e.text
        with _ | idx
      · rfl
      · exfalso
        apply hno
        have hpre := jsIndexOf_some hidx
        rw [List.isPrefixOf_iff_prefix] at hpre
        obtain ⟨hslice, hfit⟩ := hood_prefix_slice (by omega) hpre
        exact ⟨e.start - 96 + idx, by omega, by omega, hslice⟩
    refine ⟨?_, ?_⟩
    · simp only [rescueSpan, if_neg hexact, hnone]
    · simp only [redactStep, rescueSpan, if_neg hexact, hnone]

/-- Witness for `rescueSpan_window`: five characters were inserted
before `Bob`, whose recorded span `[3,6)` therefore drifted, but the
text occurs (at 8) inside the window, so the rescue finds it; and a
document without the text anywhere gets skipped unchanged. -/
theorem rescueSpan_window_witness :
    (∃ s t, rescueSpan ("12345Hi Bob!".toList) 3 6 ("Bob".toList) 96
        = some (s, t) ∧
      jsSlice ("12345Hi Bob!".toList) s t = "Bob".toList ∧
      redactStep (fun _ => "[X]".toList) ("12345Hi Bob!".toList)
        { text := "Bob".toList, label := "PERSON", start := 3, stop := 6,
          score := none, source := "model" }
        = (("12345Hi Bob!".toList).take s) ++ "[X]".toList
          ++ (("12345Hi Bob!".toList).drop t)) ∧
    (rescueSpan ("no such name here".toList) 3 6 ("Bob".toList) 96 = none ∧
      redactStep (fun _ => "[X]".toList) ("no such name here".toList)
        { text := "Bob".toList, label := "PERSON", start := 3, stop := 6,
          score := none, source := "model" } = "no such name here".toList) :=
  ⟨(rescueSpan_window (fun _ => "[X]".toList) ("12345Hi Bob!".toList)
      { text := "Bob".toList, label := "PERSON", start := 3, stop := 6,
        score := none, source := "model" }).1
    ⟨8, by decide, by decide, by decide⟩,
   (rescueSpan_window (fun _ => "[X]".toList) ("no such name here".toList)
      { text := "Bob".toList, label := "PERSON", start := 3, stop := 6,
        score := none, source := "model" }).2 (by decide)
    (by
      rintro ⟨i, h1, h2, h3⟩
      have h2a : i + 3 ≤ 17 := h2
      have hi : i ≤ 14 := by omega
      interval_cases i <;> exact absurd h3 (by decide))⟩

/-! ## Front matter and the light YAML parser (`semanticUtils.ts`) -/

/-- The value tree produced by `fromYaml`: strings at the leaves,
insertion-ordered objects inside. -/
inductive Yaml where
  | str (s : List Char)
  | obj (entries : List (List Char × Yaml))

/-- Replace the first binding of `key` in place, else append
(JS object assignment). -/
def setAssoc (key : List Char) (v : Yaml) :
    List (List Char × Yaml) → List (List Char × Yaml)
  | [] => [(key, v)]
  | (k', v') :: rest =>
    if k' = key then (key, v) :: rest else (k', v') :: setAssoc key v rest

/-- Assignment through a path of keys (the stack of the parser holds
live references to nested objects; the path from the root reaches the
same object because descendants are popped before any ancestor key is
overwritten). -/
def yamlSet : Yaml → List (List Char) → List Char → Yaml → Yaml
  | .obj entries, [], key, v => .obj (setAssoc key v entries)
  | .obj entries, p :: ps, key, v =>
    .obj (setAssoc p (yamlSet ((List.lookup p entries).getD (.obj [])) ps key v)
      entries)
  | .str s, _, _, _ => .str s

/-- One line against `/^(\s*)([^:]+):(?:\s*(.*))?$/`: `none` when the
line has no colon or starts with one (after backtracking `\s*` can
donate at most one space to `[^:]+`, giving an empty trimmed key). -/
def parseYamlLine (line : List Char) : Option (Nat × List Char × List Char) :=
  match jsIndexOf line [':'] with
  | none => none
  | some p =>
    if p = 0 then none
    else
      let before := line.take p
      let ws := before.takeWhile jsIsSpace
      let val := jsTrim (line.drop (p + 1))
      if ws.length = p then some (p - 1, [], val)
      else some (ws.length, jsTrim (before.drop ws.length), val)

/-- Split on `/\r?\n/`. -/
def splitLines : List Char → List (List Char) :=
  go []
where
  go (cur : List Char) : List Char → List (List Char)
    | [] => [cur.reverse]
    | '\r' :: '\n' :: rest => cur.reverse :: go [] rest
    | '\n' :: rest => cur.reverse :: go [] rest
    | c :: rest => go (c :: cur) rest

/-- The indentation-stack loop of `fromYaml`.  The stack holds
`(indent, path)` pairs, innermost first; the implicit root sits below
with indent −1 (never popped since `Nat` indents are ≥ 0). -/
def fromYamlGo (root : Yaml) (stack : List (Nat × List (List Char))) :
    List (List Char) → Yaml
  | [] => root
  | line :: rest =>
    match parseYamlLine line with
    | none => fromYamlGo root stack rest
    | some (indent, key, val) =>
      let stack2 := stack.dropWhile (fun t => indent ≤ t.1)
      let parent := match stack2 with | [] => [] | t :: _ => t.2
      if val.isEmpty then
        fromYamlGo (yamlSet root parent key (.obj []))
          ((indent, parent ++ [key]) :: stack2) rest
      else
        fromYamlGo (yamlSet root parent key (.str val)) stack2 rest

def fromYaml (yaml : List Char) : Yaml :=
  fromYamlGo (.obj []) [] ((splitLines yaml).filter (fun l => ¬ l.isEmpty))

/-- `extractFrontMatter` (`semanticUtils.ts`):
`/^---\n([\s\S]*?)\n---\n?\n?/` — a leading `---` line, the lazily
shortest inner block, a `---` line, and up to two greedy optional
newlines; `none` when the document has no front matter. -/
def extractFrontMatter (doc : List Char) : Option Yaml × List Char :=
  if ("---\n".toList).isPrefixOf doc then
    match jsIndexOf (doc.drop 4) ("\n---".toList) with
    | none => (none, doc)
    | some idx =>
      let inner := (doc.drop 4).take idx
      let after := doc.drop (4 + idx + 4)
      let after2 := match after with
        | '\n' :: '\n' :: r2 => r2
        | '\n' :: r => r
        | _ => after
      (some (fromYaml inner), after2)
  else (none, doc)

/-! ## Semantic unredaction (`reconcile.ts` lines 177–217) -/

/-- `[A-F0-9]`. -/
def isHexUp (c : Char) : Bool := isDigit c ∨ ('A' ≤ c ∧ c ≤ 'F')

/-- The per-key variant record built for the lookup table:
`(FULL, FIRST?, LAST?)`. -/
abbrev Variants := List Char × Option (List Char) × Option (List Char)

/-- `vset[variant] ?? vset.FULL`. -/
def variantValue (vs : Variants) (variant : List Char) : List Char :=
  if variant = "FIRST".toList then vs.2.1.getD vs.1
  else if variant = "LAST".toList then vs.2.2.getD vs.1
  else vs.1

/-- The lookup table built from a real `RedactionMap` (lines 195–201):
`FIRST`/`LAST` are present only when the entry has them non-empty
(`'first' in entry && entry.first`). -/
def buildLookup (map : RedactionMap) : List (String × Variants) :=
  map.map (fun p =>
    (p.1, (p.2.full,
      match p.2.first with
      | some f => if f.isEmpty then none else some f
      | none => none,
      match p.2.last with
      | some l => if l.isEmpty then none else some l
      | none => none)))

/-- JS string conversion of a YAML value used as an entry field. -/
def yamlFieldStr : Option Yaml → Option (List Char)
  | some (.str s) => some s
  | some (.obj _) => some ("[object Object]".toList)
  | none => none

/-- The lookup table when the map comes from front matter: the cast
`fm.redactionMap as RedactionMap` reads `full`/`first`/`last` straight
out of parsed YAML values (which stringify on substitution).  A `str`
node has only numeric `Object.entries` keys, which can never match a
token's `[A-Z]+` label, so it contributes nothing. -/
def yamlLookup (y : Yaml) : List (String × Variants) :=
  match y with
  | .str _ => []
  | .obj entries =>
    entries.map (fun p =>
      (String.mk p.1,
        ((yamlFieldStr (List.lookup ("full".toList) (yamlEntries p.2))).getD
          ("undefined".toList),
         yamlFieldStr (List.lookup ("first".toList) (yamlEntries p.2)),
         yamlFieldStr (List.lookup ("last".toList) (yamlEntries p.2)))))
where
  yamlEntries : Yaml → List (List Char × Yaml)
    | .str _ => []
    | .obj es => es

/-- One attempted match of `\[([A-Z]+_[A-F0-9]{2,}):VARIANT\]` at the
head of `s`: greedy label/id runs (the character classes make the
pattern backtracking-free).  Returns the captured `LABEL_ID` and the
match length. -/
def parseToken (variant : List Char) (s : List Char) : Option (String × Nat) :=
  match s with
  | '[' :: r =>
    let label := r.takeWhile isUpperAlpha
    if label.isEmpty then none
    else
      match r.drop label.length with
      | '_' :: r2 =>
        let id := r2.takeWhile isHexUp
        if id.length < 2 then none
        else
          match r2.drop id.length with
          | ':' :: r3 =>
            if variant.isPrefixOf r3 then
              match r3.drop variant.length with
              | ']' :: _ =>
                some (String.mk (label ++ '_' :: id),
                  label.length + 1 + id.length + 1 + variant.length + 2)
              | _ => none
            else none
          | _ => none
      | _ => none
  | _ => none

/-- One global `replace` pass for a single variant (lines 206–214):
scan left to right; at each matched token substitute the variant value
for a known `LABEL_ID`, keep the token verbatim for an unknown one,
and continue after the match either way.  Fuel starts at `s.length`
and every step consumes at least one character. -/
def unredactPassGo (lookup : List (String × Variants)) (variant : List Char) :
    Nat → List Char → List Char
  | 0, s => s
  | fuel + 1, s =>
    match s with
    | [] => []
    | c :: rest =>
      match parseToken variant s with
      | some (key, len) =>
        (match List.lookup key lookup with
         | some vs => variantValue vs variant
         | none => s.take len) ++ unredactPassGo lookup variant fuel (s.drop len)
      | none => c :: unredactPassGo lookup variant fuel rest

def unredactPass (lookup : List (String × Variants)) (variant : List Char)
    (s : List Char) : List Char :=
  unredactPassGo lookup variant s.length s

/-- The three sequential passes `FULL`, `FIRST`, `LAST`. -/
def semanticReplaceAll (lookup : List (String × Variants)) (body : List Char) :
    List Char :=
  unredactPass lookup ("LAST".toList)
    (unredactPass lookup ("FIRST".toList)
      (unredactPass lookup ("FULL".toList) body))

/-- The `usedMap` result field (`RedactionMap | null`). -/
inductive UsedMap where
  | null
  | fromFrontMatter (y : Yaml)
  | fromArg (m : RedactionMap)

/-- `fm && fm.redactionMap`: the front-matter map if present (any
present value is truthy: the parser only stores `{}`-objects or
non-empty strings). -/
def fmRedactionMap : Option Yaml → Option Yaml
  | some (.obj entries) => List.lookup ("redactionMap".toList) entries
  | _ => none

/-- `unredactTextSemantic` (`reconcile.ts` lines 177–217). -/
def unredactTextSemantic (doc : List Char) (mapArg : Option RedactionMap) :
    List Char × UsedMap :=
  let fmb := extractFrontMatter doc
  match fmRedactionMap fmb.1 with
  | some y => (semanticReplaceAll (yamlLookup y) fmb.2, .fromFrontMatter y)
  | none =>
    match mapArg with
    | some m => (semanticReplaceAll (buildLookup m) fmb.2, .fromArg m)
    | none => (fmb.2, .null)

/-! ## C10: absent front-matter map and absent argument -/

/-- C10: when the document carries no front-matter redaction map and
no map argument is supplied, `unredactTextSemantic` returns the body
untouched with `usedMap = null` instead of failing. -/
theorem unredactTextSemantic_no_map (doc : List Char) (fm : Option Yaml)
    (body : List Char)
    (hfm : extractFrontMatter doc = (fm, body))
    (hnomap : fmRedactionMap fm = none) :
    unredactTextSemantic doc none = (body, UsedMap.null) := by
  unfold unredactTextSemantic
  rw [hfm]
  simp only [hnomap]

/-- Witness: a map-less document passes through unchanged. -/
theorem unredactTextSemantic_no_map_witness :
    unredactTextSemantic ("Hello [PERSON_AB:FULL] world".toList) none
      = ("Hello [PERSON_AB:FULL] world".toList, UsedMap.null) :=
  unredactTextSemantic_no_map _ none _ rfl rfl

/-! ## C6: token-level behaviour of semantic unredaction

The body of a document is viewed as an interleaving of literal chunks
and well-formed placeholder tokens `[LABEL_ID:VARIANT]`.  Chunks that
contain no `[` can never start a token match, and values substituted
for tokens that themselves contain no `[` can never be re-matched by a
later pass, so under those conditions the three passes act exactly
token-wise. -/

/-- A segment of an interleaving: a literal chunk or a token. -/
inductive USeg where
  | lit (cs : List Char)
  | tok (label : List Char) (id : List Char) (variant : List Char)

/-- The string a token prints as. -/
def renderTok (L I V : List Char) : List Char :=
  '[' :: (L ++ '_' :: (I ++ ':' :: (V ++ [']'])))

def renderSeg : USeg → List Char
  | .lit cs => cs
  | .tok L I V => renderTok L I V

def renderSegs (segs : List USeg) : List Char := (segs.map renderSeg).flatten

/-- The `LABEL_ID` key a token looks up. -/
def keyOfTok (L I : List Char) : String := String.mk (L ++ '_' :: I)

def bracketFree (cs : List Char) : Bool := cs.all (· ≠ '[')

/-- Well-formedness of a segment: chunks are `[`-free; tokens have a
non-empty `[A-Z]+` label, an `[A-F0-9]{2,}` id, and one of the three
scanned variants. -/
def segWF : USeg → Bool
  | .lit cs => bracketFree cs
  | .tok L I V =>
    ¬ L.isEmpty ∧ L.all isUpperAlpha ∧ 2 ≤ I.length ∧ I.all isHexUp ∧
    (V = "FULL".toList ∨ V = "FIRST".toList ∨ V = "LAST".toList)

def segsWF (segs : List USeg) : Bool := segs.all segWF

/-- All values of a lookup table are `[`-free. -/
def lookupWF (lookup : List (String × Variants)) : Bool :=
  lookup.all (fun p =>
    bracketFree p.2.1 &&
    (match p.2.2.1 with | some f => bracketFree f | none => true) &&
    (match p.2.2.2 with | some l => bracketFree l | none => true))

/-- What one pass for variant `V` does to a segment. -/
def passSeg (lookup : List (String × Variants)) (V : List Char) : USeg → USeg
  | .lit cs => .lit cs
  | .tok L I V' =>
    if V' = V then
      match List.lookup (keyOfTok L I) lookup with
      | some vs => .lit (variantValue vs V')
      | none => .tok L I V'
    else .tok L I V'

/-- What the three passes jointly do to a segment: a known token
becomes its variant value (`FULL` fallback inside `variantValue`), an
unknown token stays verbatim, a literal chunk passes through. -/
def resolveSeg (lookup : List (String × Variants)) : USeg → List Char
  | .lit cs => cs
  | .tok L I V =>
    match List.lookup (keyOfTok L I) lookup with
    | some vs => variantValue vs V
    | none => renderTok L I V

/-- C6 counterexample data: the FULL value of `A_AB` is itself a
`FIRST` token of `B_CD`. -/
def ceMap : RedactionMap :=
  [("A_AB", { label := "OTHER", full := "[B_CD:FIRST]".toList,
              first := none, last := none, canonical := [] }),
   ("B_CD", { label := "PERSON", full := "x".toList,
              first := some ("y".toList), last := some ("z".toList),
              canonical := [] })]

/-- C6 counterexample: the token `[A_AB:FULL]` is *not* replaced by
its entry's value `[B_CD:FIRST]` — the later `FIRST` pass re-matches
inside the substituted value and the result is `y`. -/
theorem semanticReplaceAll_nested_counterexample :
    semanticReplaceAll (buildLookup ceMap) ("[A_AB:FULL]".toList) = "y".toList ∧
    (List.lookup "A_AB" (buildLookup ceMap)).map (fun vs => vs.1)
      = some ("[B_CD:FIRST]".toList) ∧
    "y".toList ≠ "[B_CD:FIRST]".toList := by
  refine ⟨by decide, by decide, by decide⟩

/-! ### Scanner lemmas -/

theorem unredactPassGo_nil (lookup : List (String × Variants)) (V : List Char) :
    ∀ f, unredactPassGo lookup V f [] = [] := by
  intro f; cases f <;> rfl

theorem parseToken_cons_ne {V : List Char} {c : Char} {rest : List Char}
    (h : c ≠ '[') : parseToken V (c :: rest) = none := by
  unfold parseToken
  split
  · rename_i heq
    cases heq
    exact absurd rfl h
  · rfl

theorem parseToken_pos {V s : List Char} {k : String} {len : Nat}
    (h : parseToken V s = some (k, len)) : 1 ≤ len := by
  unfold parseToken at h
  simp only [] at h
  repeat' split at h
  all_goals cases h
  all_goals omega

/-- A `[`-free chunk passes through the scanner verbatim, consuming
one fuel per character. -/
theorem unredactPassGo_lit (lookup : List (String × Variants)) (V : List Char) :
    ∀ (cs : List Char) (f : Nat) (r : List Char), bracketFree cs = true →
      unredactPassGo lookup V f (cs ++ r)
        = cs ++ unredactPassGo lookup V (f - cs.length) r := by
  intro cs
  induction cs with
  | nil => intro f r _; simp
  | cons c cs2 ih =>
    intro f r hbf
    rw [bracketFree, List.all_cons, Bool.and_eq_true] at hbf
    have hc : c ≠ '[' := by simpa using hbf.1
    cases f with
    | zero =>
      show (c :: cs2 ++ r) = c :: cs2 ++ unredactPassGo lookup V (0 - (cs2.length + 1)) r
      rw [Nat.zero_sub]
      show (c :: cs2 ++ r) = c :: cs2 ++ r
      rfl
    | succ f2 =>
      show (match parseToken V (c :: (cs2 ++ r)) with
        | some (key, len) =>
          (match List.lookup key lookup with
           | some vs => variantValue vs V
           | none => (c :: (cs2 ++ r)).take len) ++
            unredactPassGo lookup V f2 ((c :: (cs2 ++ r)).drop len)
        | none => c :: unredactPassGo lookup V f2 (cs2 ++ r))
        = c :: cs2 ++ unredactPassGo lookup V (f2 + 1 - (cs2.length + 1)) r
      rw [parseToken_cons_ne hc]
      show c :: unredactPassGo lookup V f2 (cs2 ++ r) = _
      rw [ih f2 r hbf.2]
      simp [Nat.succ_sub_succ]

theorem takeWhile_append_stop {p : Char → Bool} :
    ∀ (l : List Char) (x : Char) (r : List Char),
      l.all p = true → p x = false →
      (l ++ x :: r).takeWhile p = l := by
  intro l
  induction l with
  | nil => intro x r _ hx; simp [List.takeWhile, hx]
  | cons a as ih =>
    intro x r hall hx
    rw [List.all_cons, Bool.and_eq_true] at hall
    simp only [List.cons_append, List.takeWhile, hall.1, List.append_eq]
    exact congrArg (a :: ·) (ih x r hall.2 hx)

theorem isUpperAlpha_ne_bracket {c : Char} (h : isUpperAlpha c = true) :
    c ≠ '[' := by
  intro hc; subst hc; simp [isUpperAlpha] at h

theorem isHexUp_ne_bracket {c : Char} (h : isHexUp c = true) : c ≠ '[' := by
  intro hc; subst hc
  simp [isHexUp, isDigit] at h

theorem isUpperAlpha_underscore : isUpperAlpha '_' = false := by decide

theorem isHexUp_colon : isHexUp ':' = false := by decide

/-- The scanner's token parser accepts a rendered well-formed token of
the scanned variant at the head of the input, capturing its
`LABEL_ID`, and its match length is the token's length. -/
theorem parseToken_renderTok (L I V r : List Char)
    (hL : L ≠ []) (hLa : L.all isUpperAlpha = true)
    (hI : 2 ≤ I.length) (hIa : I.all isHexUp = true) :
    parseToken V (renderTok L I V ++ r)
      = some (keyOfTok L I, L.length + 1 + I.length + 1 + V.length + 2) := by
  have hshape : renderTok L I V ++ r
      = '[' :: (L ++ '_' :: (I ++ ':' :: (V ++ ']' :: r))) := by
    simp [renderTok]
  rw [hshape]
  unfold parseToken
  simp only []
  rw [takeWhile_append_stop L '_' _ hLa isUpperAlpha_underscore]
  rw [if_neg (by simpa using hL)]
  rw [List.drop_left]
  simp only []
  rw [takeWhile_append_stop I ':' _ hIa isHexUp_colon]
  rw [if_neg (by omega)]
  rw [List.drop_left]
  simp only []
  rw [if_pos (List.isPrefixOf_iff_prefix.mpr (List.prefix_append V _))]
  rw [List.drop_left]
  rfl

/-- The scanned variants: none is a prefix of another followed by
`]`, so a well-formed token of a different variant never matches. -/
theorem parseToken_renderTok_ne (L I V' V r : List Char)
    (hL : L ≠ []) (hLa : L.all isUpperAlpha = true)
    (hI : 2 ≤ I.length) (hIa : I.all isHexUp = true)
    (hv' : V' = "FULL".toList ∨ V' = "FIRST".toList ∨ V' = "LAST".toList)
    (hv : V = "FULL".toList ∨ V = "FIRST".toList ∨ V = "LAST".toList)
    (hne : V' ≠ V) :
    parseToken V (renderTok L I V' ++ r) = none := by
  have hshape : renderTok L I V' ++ r
      = '[' :: (L ++ '_' :: (I ++ ':' :: (V' ++ ']' :: r))) := by
    simp [renderTok]
  rw [hshape]
  unfold parseToken
  simp only []
  rw [takeWhile_append_stop L '_' _ hLa isUpperAlpha_underscore]
  rw [if_neg (by simpa using hL)]
  rw [List.drop_left]
  simp only []
  rw [takeWhile_append_stop I ':' _ hIa isHexUp_colon]
  rw [if_neg (by omega)]
  rw [List.drop_left]
  simp only []
  rw [if_neg ?hpre]
  case hpre =>
    rcases hv with h | h | h <;> rcases hv' with h' | h' | h' <;>
      subst h <;> subst h' <;> first
        | (exact absurd rfl hne)
        | (simp [List.isPrefixOf, String.toList])

theorem renderTok_length (L I V : List Char) :
    (renderTok L I V).length = L.length + 1 + I.length + 1 + V.length + 2 := by
  simp [renderTok]
  omega

theorem unredactPassGo_cons (lookup : List (String × Variants)) (V : List Char)
    (f : Nat) (c : Char) (rest : List Char) :
    unredactPassGo lookup V (f + 1) (c :: rest)
      = match parseToken V (c :: rest) with
        | some (key, len) =>
          (match List.lookup key lookup with
           | some vs => variantValue vs V
           | none => (c :: rest).take len) ++
            unredactPassGo lookup V f ((c :: rest).drop len)
        | none => c :: unredactPassGo lookup V f rest := rfl

theorem mem_of_lookup_eq_some {α β : Type} [BEq α] [LawfulBEq α] {k : α} {v : β} :
    ∀ {l : List (α × β)}, List.lookup k l = some v → (k, v) ∈ l := by
  intro l
  induction l with
  | nil => intro h; cases h
  | cons x xs ih =>
    obtain ⟨k2, v2⟩ := x
    intro h
    rw [List.lookup] at h
    cases hbeq : (k == k2) with
    | true =>
      rw [hbeq] at h
      cases h
      have : k = k2 := eq_of_beq hbeq
      subst this
      exact List.mem_cons_self _ _
    | false =>
      rw [hbeq] at h
      exact List.mem_cons_of_mem _ (ih h)

theorem all_ne_bracket_of_upper {L : List Char} (h : L.all isUpperAlpha = true) :
    bracketFree L = true := by
  rw [bracketFree, List.all_eq_true]
  rw [List.all_eq_true] at h
  intro c hc
  simpa using isUpperAlpha_ne_bracket (h c hc)

theorem all_ne_bracket_of_hex {I : List Char} (h : I.all isHexUp = true) :
    bracketFree I = true := by
  rw [bracketFree, List.all_eq_true]
  rw [List.all_eq_true] at h
  intro c hc
  simpa using isHexUp_ne_bracket (h c hc)

theorem bracketFree_append {a b : List Char} (ha : bracketFree a = true)
    (hb : bracketFree b = true) : bracketFree (a ++ b) = true := by
  rw [bracketFree, List.all_append, Bool.and_eq_true]
  rw [bracketFree] at ha hb
  exact ⟨ha, hb⟩

/-- The token interior (everything after the opening bracket) is
`[`-free. -/
theorem bracketFree_interior (L I V' : List Char)
    (hLa : L.all isUpperAlpha = true) (hIa : I.all isHexUp = true)
    (hv' : V' = "FULL".toList ∨ V' = "FIRST".toList ∨ V' = "LAST".toList) :
    bracketFree (L ++ '_' :: (I ++ ':' :: (V' ++ [']']))) = true := by
  apply bracketFree_append (all_ne_bracket_of_upper hLa)
  show bracketFree ('_' :: (I ++ ':' :: (V' ++ [']']))) = true
  rw [show ('_' :: (I ++ ':' :: (V' ++ [']']))) = ['_'] ++ (I ++ [':'] ++ (V' ++ [']'])) from by simp]
  apply bracketFree_append (by decide)
  apply bracketFree_append (bracketFree_append (all_ne_bracket_of_hex hIa) (by decide))
  apply bracketFree_append ?_ (by decide)
  rcases hv' with h | h | h <;> subst h <;> decide

/-- Scanning fuel step on a token of the scanned variant. -/
theorem unredactPassGo_tok_match (lookup : List (String × Variants))
    (V L I r : List Char) (f : Nat)
    (hL : L ≠ []) (hLa : L.all isUpperAlpha = true)
    (hI : 2 ≤ I.length) (hIa : I.all isHexUp = true) :
    unredactPassGo lookup V (f + 1) (renderTok L I V ++ r)
      = (match List.lookup (keyOfTok L I) lookup with
         | some vs => variantValue vs V
         | none => renderTok L I V) ++ unredactPassGo lookup V f r := by
  have hcons : renderTok L I V ++ r
      = '[' :: ((L ++ '_' :: (I ++ ':' :: (V ++ [']']))) ++ r) := by
    simp [renderTok]
  have hparse := parseToken_renderTok L I V r hL hLa hI hIa
  rw [hcons] at hparse
  rw [hcons, unredactPassGo_cons, hparse]
  have hlen : L.length + 1 + I.length + 1 + V.length + 2
      = (renderTok L I V).length := by rw [renderTok_length]
  have hdrop : ('[' :: ((L ++ '_' :: (I ++ ':' :: (V ++ [']']))) ++ r)).drop
      (L.length + 1 + I.length + 1 + V.length + 2) = r := by
    rw [hlen, ← hcons, List.drop_left]
  have htake : ('[' :: ((L ++ '_' :: (I ++ ':' :: (V ++ [']']))) ++ r)).take
      (L.length + 1 + I.length + 1 + V.length + 2) = renderTok L I V := by
    rw [hlen, ← hcons, List.take_left]
  simp only []
  rw [hdrop, htake]

/-- Scanning fuel step on a token of another variant: it passes
through verbatim ( `[` fails to parse, the interior is `[`-free). -/
theorem unredactPassGo_tok_other (lookup : List (String × Variants))
    (V L I V' r : List Char) (f : Nat)
    (hL : L ≠ []) (hLa : L.all isUpperAlpha = true)
    (hI : 2 ≤ I.length) (hIa : I.all isHexUp = true)
    (hv' : V' = "FULL".toList ∨ V' = "FIRST".toList ∨ V' = "LAST".toList)
    (hv : V = "FULL".toList ∨ V = "FIRST".toList ∨ V = "LAST".toList)
    (hne : V' ≠ V) :
    unredactPassGo lookup V (f + 1) (renderTok L I V' ++ r)
      = renderTok L I V' ++
        unredactPassGo lookup V (f - (L ++ '_' :: (I ++ ':' :: (V' ++ [']']))).length) r := by
  have hcons : renderTok L I V' ++ r
      = '[' :: ((L ++ '_' :: (I ++ ':' :: (V' ++ [']']))) ++ r) := by
    simp [renderTok]
  have hparse := parseToken_renderTok_ne L I V' V r hL hLa hI hIa hv' hv hne
  rw [hcons] at hparse
  rw [hcons, unredactPassGo_cons, hparse]
  show '[' :: unredactPassGo lookup V f ((L ++ '_' :: (I ++ ':' :: (V' ++ [']']))) ++ r) = _
  rw [unredactPassGo_lit lookup V _ f r (bracketFree_interior L I V' hLa hIa hv')]
  simp [renderTok]

/-- One pass over a well-formed interleaving acts segment-wise. -/
theorem unredactPassGo_segs (lookup : List (String × Variants)) (V : List Char)
    (hv : V = "FULL".toList ∨ V = "FIRST".toList ∨ V = "LAST".toList) :
    ∀ (segs : List USeg) (f : Nat), segsWF segs = true →
      (renderSegs segs).length ≤ f →
      unredactPassGo lookup V f (renderSegs segs)
        = renderSegs (segs.map (passSeg lookup V)) := by
  intro segs
  induction segs with
  | nil =>
    intro f _ _
    simp [renderSegs, unredactPassGo_nil]
  | cons seg rest ih =>
    intro f hwf hf
    rw [segsWF, List.all_cons, Bool.and_eq_true] at hwf
    have hrest : segsWF rest = true := hwf.2
    have hrender : renderSegs (seg :: rest) = renderSeg seg ++ renderSegs rest := by
      simp [renderSegs]
    rw [hrender] at hf ⊢
    cases seg with
    | lit cs =>
      have hbf : bracketFree cs = true := hwf.1
      simp only [renderSeg] at hf ⊢
      rw [unredactPassGo_lit lookup V cs f _ hbf]
      rw [ih (f - cs.length) hrest (by
        rw [List.length_append] at hf
        omega)]
      simp [renderSegs, passSeg, renderSeg]
    | tok L I V' =>
      have hwf1 := hwf.1
      simp only [segWF, Bool.and_eq_true, decide_eq_true_eq] at hwf1
      obtain ⟨hLne, hLa, hI, hIa, hv'⟩ := hwf1
      have hL : L ≠ [] := by simpa using hLne
      simp only [renderSeg] at hf ⊢
      have hlen4 : 4 ≤ (renderTok L I V').length := by
        rw [renderTok_length]; omega
      rw [List.length_append] at hf
      cases f with
      | zero => omega
      | succ f2 =>
        by_cases hVv : V' = V
        · subst hVv
          rw [unredactPassGo_tok_match lookup V' L I _ f2 hL hLa hI hIa]
          rw [ih f2 hrest (by rw [renderTok_length] at hf; omega)]
          simp only [renderSegs, List.map_cons, List.flatten, passSeg, if_pos rfl]
          cases List.lookup (keyOfTok L I) lookup with
          | none => simp [renderSeg]
          | some vs => simp [renderSeg]
        · rw [unredactPassGo_tok_other lookup V L I V' _ f2 hL hLa hI hIa hv' hv hVv]
          have hil : (L ++ '_' :: (I ++ ':' :: (V' ++ [']']))).length
              = (renderTok L I V').length - 1 := by
            simp [renderTok]
          rw [hil]
          rw [ih (f2 - ((renderTok L I V').length - 1)) hrest
            (by rw [renderTok_length] at hf ⊢; omega)]
          simp only [renderSegs, List.map_cons, List.flatten, passSeg, if_neg hVv]
          simp [renderSeg]

/-- A pass preserves well-formedness of the interleaving when the
lookup values are `[`-free. -/
theorem passSeg_wf (lookup : List (String × Variants)) (V : List Char)
    (hlk : lookupWF lookup = true) :
    ∀ segs, segsWF segs = true → segsWF (segs.map (passSeg lookup V)) = true := by
  intro segs
  induction segs with
  | nil => intro _; rfl
  | cons seg rest ih =>
    intro hwf
    rw [segsWF, List.all_cons, Bool.and_eq_true] at hwf
    rw [List.map_cons, segsWF, List.all_cons, Bool.and_eq_true]
    refine ⟨?_, ih hwf.2⟩
    cases seg with
    | lit cs => exact hwf.1
    | tok L I V' =>
      simp only [passSeg]
      split
      · rcases hlook : List.lookup (keyOfTok L I) lookup with _ | vs
        · exact hwf.1
        · have hmem := mem_of_lookup_eq_some hlook
          rw [lookupWF, List.all_eq_true] at hlk
          have hvs := hlk _ hmem
          simp only [Bool.and_eq_true] at hvs
          show segWF (.lit _) = true
          show bracketFree (variantValue vs V') = true
          rw [variantValue]
          split
          · rcases hfst : vs.2.1 with _ | fv
            · simp [Option.getD, hfst, hvs.1.1]
            · simp only [hfst, Option.getD_some]
              have := hvs.1.2
              rw [hfst] at this
              simpa using this
          · split
            · rcases hlst : vs.2.2 with _ | lv
              · simp [Option.getD, hlst, hvs.1.1]
              · simp only [hlst, Option.getD_some]
                have := hvs.2
                rw [hlst] at this
                simpa using this
            · exact hvs.1.1
      · exact hwf.1

/-- The three passes act segment-wise. -/
theorem semanticReplaceAll_segs (lookup : List (String × Variants))
    (segs : List USeg) (hsegs : segsWF segs = true)
    (hlk : lookupWF lookup = true) :
    semanticReplaceAll lookup (renderSegs segs)
      = renderSegs (((segs.map (passSeg lookup ("FULL".toList))).map
          (passSeg lookup ("FIRST".toList))).map
          (passSeg lookup ("LAST".toList))) := by
  unfold semanticReplaceAll unredactPass
  rw [unredactPassGo_segs lookup _ (Or.inl rfl) segs _ hsegs (le_refl _)]
  rw [unredactPassGo_segs lookup _ (Or.inr (Or.inl rfl)) _ _
    (passSeg_wf _ _ hlk _ hsegs) (le_refl _)]
  rw [unredactPassGo_segs lookup _ (Or.inr (Or.inr rfl)) _ _
    (passSeg_wf _ _ hlk _ (passSeg_wf _ _ hlk _ hsegs)) (le_refl _)]

/-- Across the three passes a well-formed segment resolves to
`resolveSeg`: known tokens to their variant value, unknown tokens to
themselves, chunks unchanged. -/
theorem passes_resolve (lookup : List (String × Variants)) :
    ∀ segs : List USeg, segsWF segs = true →
      renderSegs (((segs.map (passSeg lookup ("FULL".toList))).map
          (passSeg lookup ("FIRST".toList))).map
          (passSeg lookup ("LAST".toList)))
        = (segs.map (resolveSeg lookup)).flatten := by
  intro segs
  induction segs with
  | nil => intro _; rfl
  | cons seg rest ih =>
    intro hwf
    rw [segsWF, List.all_cons, Bool.and_eq_true] at hwf
    simp only [List.map_cons]
    rw [show ∀ (a : USeg) (l : List USeg),
        renderSegs (a :: l) = renderSeg a ++ renderSegs l from
      fun a l => by simp [renderSegs]]
    rw [ih hwf.2, List.flatten_cons]
    congr 1
    cases seg with
    | lit cs => rfl
    | tok L I V =>
      have hv : V = "FULL".toList ∨ V = "FIRST".toList ∨ V = "LAST".toList := by
        have := hwf.1
        simp only [segWF, Bool.and_eq_true, decide_eq_true_eq] at this
        exact this.2.2.2.2
      rcases hv with h | h | h <;> subst h <;>
        rcases hlook : List.lookup (keyOfTok L I) lookup with _ | vs <;>
          simp [passSeg, resolveSeg, renderSeg, hlook]

/-- C6 (amended): over a body made of `[`-free chunks and well-formed
placeholder tokens, with all map values `[`-free, semantic unredaction
replaces each token whose `LABEL_ID` is a key of the map by that
entry's value for the token's variant (with the `FULL` fallback folded
into `variantValue`), leaves every token with an unknown `LABEL_ID`
verbatim, keeps all chunks unchanged, and — being a total function —
never raises an error. -/
theorem unredactTextSemantic_token_behaviour (m : RedactionMap)
    (segs : List USeg) (doc : List Char)
    (hsegs : segsWF segs = true) (hlk : lookupWF (buildLookup m) = true)
    (hfm : extractFrontMatter doc = (none, renderSegs segs)) :
    unredactTextSemantic doc (some m)
      = ((segs.map (resolveSeg (buildLookup m))).flatten, .fromArg m) := by
  have h1 : unredactTextSemantic doc (some m)
      = (semanticReplaceAll (buildLookup m) (renderSegs segs), .fromArg m) := by
    unfold unredactTextSemantic
    rw [hfm]
    rfl
  rw [h1, semanticReplaceAll_segs _ _ hsegs hlk, passes_resolve _ _ hsegs]

def c6segs : List USeg :=
  [.lit ("Hi ".toList),
   .tok ("PERSON".toList) ("7C9915".toList) ("FULL".toList),
   .lit (" and ".toList),
   .tok ("X".toList) ("FF".toList) ("FIRST".toList),
   .lit ("!".toList)]

/-- Witness: the known token `[PERSON_7C9915:FULL]` becomes `John`,
the unknown token `[X_FF:FIRST]` stays verbatim, the chunks pass
through. -/
theorem unredactTextSemantic_token_behaviour_witness :
    unredactTextSemantic ("Hi [PERSON_7C9915:FULL] and [X_FF:FIRST]!".toList)
        (some (createRedactionMap [semJohnPerson]))
      = ((c6segs.map (resolveSeg (buildLookup (createRedactionMap [semJohnPerson])))).flatten,
         .fromArg (createRedactionMap [semJohnPerson])) ∧
    (c6segs.map (resolveSeg (buildLookup (createRedactionMap [semJohnPerson])))).flatten
      = "Hi John and [X_FF:FIRST]!".toList :=
  ⟨unredactTextSemantic_token_behaviour _ c6segs _ (by decide) (by decide) rfl,
   by decide⟩

/-! ## Positional mode of C1

Three in-repo pieces: the `redactText` of the old index-based
redactor (map keyed by the *bare* token, placeholder `[token]`
inserted), the split/join unredactor of `handleUnredact`
(`pii-detector.ts` lines 369–381 and 1340–1352), and the first
revision's `handleRedact` (lines 338–367, map keyed by the *full
bracketed* placeholder). -/

def base64Chars : List Char :=
  "ABCDEFGHIJKLMNOPQRSTUVWXYZabcdefghijklmnopqrstuvwxyz0123456789+/".toList

def b64At (n : Nat) : Char := base64Chars.getD n 'A'

/-- `btoa` on byte values (entity texts are Latin-1 in the inputs
under study; JS throws beyond that). -/
def btoaChunks : List Nat → List Char
  | [] => []
  | [b0] => [b64At (b0 / 4), b64At (b0 % 4 * 16), '=', '=']
  | [b0, b1] => [b64At (b0 / 4), b64At (b0 % 4 * 16 + b1 / 16),
                 b64At (b1 % 16 * 4), '=']
  | b0 :: b1 :: b2 :: rest =>
    b64At (b0 / 4) :: b64At (b0 % 4 * 16 + b1 / 16) ::
    b64At (b1 % 16 * 4 + b2 / 64) :: b64At (b2 % 64) :: btoaChunks rest

def btoa (s : List Char) : List Char := btoaChunks (s.map (fun c => c.toNat % 256))

/-- The deterministic token of the old redactor:
`` `${e.label}_${btoa(e.text).slice(0, 6).toUpperCase()}` `` —
without brackets; the inserted placeholder is `[${token}]`. -/
def posToken (e : Entity) : List Char :=
  e.label.toList ++ '_' :: upperStr ((btoa e.text).take 6)

def setAssocL (m : List (List Char × List Char)) (k v : List Char) :
    List (List Char × List Char) :=
  match m with
  | [] => [(k, v)]
  | (k2, v2) :: rest =>
    if k2 = k then (k, v) :: rest else (k2, v2) :: setAssocL rest k v

/-- Deduplicate by `(start, end)` keeping first occurrences. -/
def dedupeBySpanPosGo (seen : List (Nat × Nat)) : List Entity → List Entity
  | [] => []
  | e :: rest =>
    if (e.start, e.stop) ∈ seen then dedupeBySpanPosGo seen rest
    else e :: dedupeBySpanPosGo ((e.start, e.stop) :: seen) rest

/-- One loop iteration of the old redactor (lines 25–50 of its file):
window search (±64) first, trimmed-compare fallback, then splice in
`[token]` and record `token ↦ text`. -/
def redactPosStep (acc : List Char × List (List Char × List Char)) (e : Entity) :
    List Char × List (List Char × List Char) :=
  let output := acc.1
  let left := e.start - 64
  let snippet := jsSlice output left (min output.length (e.stop + 64))
  let replaceAt (start stop : Nat) :=
    (jsSlice output 0 start ++ '[' :: (posToken e ++ [']']) ++ output.drop stop,
     setAssocL acc.2 (posToken e) e.text)
  match jsIndexOf snippet e.text with
  | some idx => replaceAt (left + idx) (left + idx + e.text.length)
  | none =>
    if jsTrim (jsSlice output e.start e.stop) = jsTrim e.text then
      replaceAt e.start e.stop
    else acc

/-- The old positional `redactText` (deterministic mode; the random
branch draws `Math.random` and is out of the model's scope). -/
def redactTextPos (text : List Char) (entities : List Entity) :
    List Char × List (List Char × List Char) :=
  if entities.isEmpty then (text, [])
  else
    (stableSort (fun a b => b.start < a.start)
        (dedupeBySpanPosGo [] entities)).foldl redactPosStep (text, [])

/-- `result.split(pat).join(rep)`: replace all leftmost
non-overlapping occurrences.  Fuel starts at `s.length`. -/
def replaceAllLitGo (needle repl : List Char) : Nat → List Char → List Char
  | 0, s => s
  | f + 1, s =>
    match s with
    | [] => []
    | c :: rest =>
      if needle.isPrefixOf s then
        repl ++ replaceAllLitGo needle repl f (s.drop needle.length)
      else c :: replaceAllLitGo needle repl f rest

def replaceAllLit (s needle repl : List Char) : List Char :=
  if needle.isEmpty then s else replaceAllLitGo needle repl s.length s

/-- `handleUnredact`: for each map entry, split the text on the stored
placeholder and join with the original
(`result.split(placeholder).join(originalText)`), in insertion
order. -/
def unredactPositional (m : List (List Char × List Char)) (doc : List Char) :
    List Char :=
  m.foldl (fun res p => replaceAllLit res p.1 p.2) doc

/-- `simpleHash` (`placeholders.ts`): `h = ((h << 5) - h) + c; h &= h`
on 32-bit signed integers is `h ↦ wrap32 (31h + c)`. -/
def wrap32 (i : Int) : Int := (i + 2147483648) % 4294967296 - 2147483648

def simpleHashLoop (s : List Char) : Int :=
  s.foldl (fun h c => wrap32 (31 * h + c.toNat)) 0

def base36Char (n : Nat) : Char :=
  if n < 10 then Char.ofNat ('0'.toNat + n) else Char.ofNat ('a'.toNat + (n - 10))

def toBase36Go : Nat → Nat → List Char
  | 0, _ => []
  | f + 1, n => if n < 36 then [base36Char n] else
      toBase36Go f (n / 36) ++ [base36Char (n % 36)]

def jsToString36 (n : Nat) : List Char := toBase36Go (n + 1) n

/-- `Math.abs(hash).toString(36).substring(0, 8).toUpperCase()`. -/
def simpleHash (s : List Char) : List Char :=
  upperStr ((jsToString36 (simpleHashLoop s).natAbs).take 8)

/-- `makePlaceholder` (deterministic): the full bracketed token
`[LABEL_HASH]`, hashing the lower-cased text. -/
def makePlaceholder (label : String) (text : List Char) : List Char :=
  '[' :: (label.toList ++ '_' :: simpleHash (lowerStr text)) ++ [']']

/-- One iteration of the `handleRedact` loop (reversible mode):
splice the placeholder in at the recorded span and record
`placeholder ↦ text`. -/
def redactHandleStep (acc : List Char × List (List Char × List Char))
    (e : Entity) : List Char × List (List Char × List Char) :=
  let ph := makePlaceholder e.label e.text
  (jsSlice acc.1 0 e.start ++ ph ++ acc.1.drop e.stop,
   setAssocL acc.2 ph e.text)

/-- `handleRedact` (first revision, reversible mode): sort selected
entities descending by start and splice each placeholder in at its
recorded span, recording `placeholder ↦ text`. -/
def redactHandle (inputText : List Char) (entities : List Entity) :
    List Char × List (List Char × List Char) :=
  (stableSort (fun a b => b.start < a.start) entities).foldl
    redactHandleStep (inputText, [])

/-! ## Semantic redaction (`semanticRedact.ts` / `part_001`) -/

/-- `placeholder(labelAndId, variant)` = `[LABEL_ID:VARIANT]`. -/
def placeholderSem (key : String) (variant : List Char) : List Char :=
  '[' :: (key.toList ++ ':' :: variant) ++ [']']

/-- Character comparison under the optional `i` flag (ASCII). -/
def matchEq (ci : Bool) (a b : Char) : Bool :=
  if ci then jsLower a = jsLower b else a = b

/-- Prefix match of `needle` against `s` under `ci`. -/
def matchPrefix (ci : Bool) : List Char → List Char → Bool
  | [], _ => true
  | _ :: _, [] => false
  | a :: as, b :: bs => matchEq ci a b && matchPrefix ci as bs

/-- The scanner for `new RegExp('\\b' + escapeRegExp(needle) + '\\b',
'gi').replace`: leftmost non-overlapping matches; `prev` is the
character before the scan position (for the left `\b`); the right `\b`
compares the matched text's last character with the following one.
Fuel starts at the haystack length. -/
def replaceWBGo (ci : Bool) (needle repl : List Char) :
    Nat → Option Char → List Char → List Char
  | 0, _, s => s
  | f + 1, prev, s =>
    match s with
    | [] => []
    | c :: rest =>
      if matchPrefix ci needle s ∧
          (isWordOpt prev ≠ isWordChar c) ∧
          (isWordChar (((s.take needle.length).getLastD c))
            ≠ isWordOpt (s.drop needle.length).head?) then
        repl ++ replaceWBGo ci needle repl f
          ((s.take needle.length).getLastD c) (s.drop needle.length)
      else c :: replaceWBGo ci needle repl f (some c) rest

def replaceAllWordBoundary (haystack needle repl : List Char) (ci : Bool) :
    List Char :=
  if needle.isEmpty then haystack
  else replaceWBGo ci needle repl haystack.length none haystack

structure RedactOptions where
  redactPersonFirstLast : Bool
  embedFrontMatter : Bool
  caseInsensitive : Bool

/-- The YAML field list `Object.keys` sees on a spread
`RedactionEntry` (field order of the object literals in
`buildRedactionEntry`). -/
def entryYamlFields (e : RedactionEntry) : List (List Char × List Char) :=
  [("label".toList, e.label.toList), ("full".toList, e.full)] ++
  (match e.first with | some f => [("first".toList, f)] | none => []) ++
  (match e.last with | some l => [("last".toList, l)] | none => []) ++
  [("canonical".toList, e.canonical)]

def joinNl (xs : List (List Char)) : List Char := List.intercalate ['\n'] xs

/-- `toYaml(entry, 2)`. -/
def toYamlFields (e : RedactionEntry) : List Char :=
  joinNl ((entryYamlFields e).map
    (fun p => "    ".toList ++ p.1 ++ ':' :: ' ' :: p.2)) ++ ['\n']

/-- `toYaml(map, 1)`. -/
def toYamlEntries (m : RedactionMap) : List Char :=
  joinNl (m.map (fun p =>
    "  ".toList ++ p.1.toList ++ ':' :: '\n' :: toYamlFields p.2)) ++ ['\n']

/-- `toYaml({redactionMap: m}, 0)`. -/
def toYamlTop (m : RedactionMap) : List Char :=
  "redactionMap:".toList ++ '\n' :: toYamlEntries m ++ ['\n']

/-- `embedFrontMatter` (`semanticUtils.ts`):
`` `---\n${yaml}---\n\n${body}` ``. -/
def embedFrontMatter (m : RedactionMap) (body : List Char) : List Char :=
  "---\n".toList ++ toYamlTop m ++ "---\n\n".toList ++ body

/-- The per-entry body of the `redactTextSemantic` loop: the FULL
pass, then (for PERSON with the option on) the FIRST and LAST passes
guarded by `first && first !== entry.full` (resp. `last`). -/
def semRedactEntry (options : RedactOptions) (out : List Char)
    (p : String × RedactionEntry) : List Char :=
  let key := p.1
  let entry := p.2
  let out1 := replaceAllWordBoundary out entry.full
    (placeholderSem key ("FULL".toList)) options.caseInsensitive
  if entry.label = "PERSON" ∧ options.redactPersonFirstLast then
    let first := entry.first.getD []
    let last := entry.last.getD []
    let out2 := if ¬ first.isEmpty ∧ first ≠ entry.full then
        replaceAllWordBoundary out1 first
          (placeholderSem key ("FIRST".toList)) options.caseInsensitive
      else out1
    if ¬ last.isEmpty ∧ last ≠ entry.full then
      replaceAllWordBoundary out2 last
        (placeholderSem key ("LAST".toList)) options.caseInsensitive
    else out2
  else out1

/-- `redactTextSemantic` (`part_001`): build the map, replace longest
`full` values first, optionally embed the map as front matter.
(The `localStorage` write is an external side effect.) -/
def redactTextSemantic (text : List Char) (entities : List SemEntity)
    (options : RedactOptions) : List Char × RedactionMap :=
  let map := createRedactionMap entities
  let entries := stableSort (fun a b => b.2.full.length < a.2.full.length) map
  let out := entries.foldl (semRedactEntry options) text
  (if options.embedFrontMatter then embedFrontMatter map out else out, map)

/-- The options used throughout C1: person-variant expansion on,
case-insensitive matching on, the produced map passed explicitly
rather than embedded. -/
def c1Options : RedactOptions :=
  { redactPersonFirstLast := true, embedFrontMatter := false,
    caseInsensitive := true }

/-! ## C1: the round trip -/

def bobEnt : Entity :=
  { text := "Bob".toList, label := "PERSON", start := 3, stop := 6,
    score := none, source := "model" }

def danielSem : SemEntity := ⟨"Daniel".toList, "PERSON"⟩

/-- C1 counterexample, both modes.  Positional: the old redactor
records the map under the bare token but inserts `[token]`, and the
split/join unredactor substitutes the bare token back, leaving stray
brackets: `"Hi Bob"` round-trips to `"Hi [Bob]"`.  Semantic:
case-insensitive word-boundary matching redacts `"daniel"` and
unredaction restores the entry's canonical-case `"Daniel"`, so the
round trip changes the document's case. -/
theorem roundtrip_counterexample :
    (let r := redactTextPos ("Hi Bob".toList) [bobEnt]
     unredactPositional r.2 r.1 = "Hi [Bob]".toList ∧
       "Hi [Bob]".toList ≠ "Hi Bob".toList) ∧
    (let r := redactTextSemantic ("daniel".toList) [danielSem] c1Options
     (unredactTextSemantic r.1 (some r.2)).1 = "Daniel".toList ∧
       "Daniel".toList ≠ "daniel".toList) := by
  exact ⟨⟨by decide, by decide⟩, ⟨by decide, by decide⟩⟩

/-! ## C1 (amended), positional half: segment framework -/

/-- Free of both bracket characters. -/
def noBrackets (cs : List Char) : Bool := cs.all (fun c => c ≠ '[' ∧ c ≠ ']')

/-- A positional segment: either untouched literal text or a redacted
entity (rendered as its placeholder). -/
inductive PSeg where
  | lit (cs : List Char)
  | ph (e : Entity)
deriving DecidableEq

def renderPSeg : PSeg → List Char
  | .lit cs => cs
  | .ph e => makePlaceholder e.label e.text

def renderPSegs (segs : List PSeg) : List Char := (segs.map renderPSeg).flatten

def origPSeg : PSeg → List Char
  | .lit cs => cs
  | .ph e => e.text

def origPSegs (segs : List PSeg) : List Char := (segs.map origPSeg).flatten

/-- The segment decomposition produced by splicing placeholders in at
the spans of a start-descending entity list. -/
def buildPSegs (doc : List Char) : List Entity → List PSeg
  | [] => [.lit doc]
  | e :: rest =>
    buildPSegs (doc.take e.start) rest ++ [.ph e, .lit (doc.drop e.stop)]

theorem renderPSegs_append (a b : List PSeg) :
    renderPSegs (a ++ b) = renderPSegs a ++ renderPSegs b := by
  simp [renderPSegs]

theorem origPSegs_append (a b : List PSeg) :
    origPSegs (a ++ b) = origPSegs a ++ origPSegs b := by
  simp [origPSegs]

/-! ### Stable insertion sort: permutation and sortedness -/

theorem stableInsert_perm {α : Type} (lt : α → α → Bool) (x : α) :
    ∀ l : List α, (stableInsert lt x l).Perm (x :: l) := by
  intro l
  induction l with
  | nil => simp [stableInsert]
  | cons y ys ih =>
    rw [stableInsert]
    by_cases h : lt y x = true
    · rw [if_pos h]
      exact (ih.cons y).trans (List.Perm.swap x y ys)
    · rw [if_neg h]

theorem stableSort_perm {α : Type} (lt : α → α → Bool) :
    ∀ l : List α, (stableSort lt l).Perm l := by
  intro l
  induction l with
  | nil => exact List.Perm.refl _
  | cons x xs ih =>
    rw [stableSort]
    exact (stableInsert_perm lt x (stableSort lt xs)).trans (ih.cons x)

theorem mem_stableInsert {α : Type} (lt : α → α → Bool) (x a : α)
    (l : List α) : a ∈ stableInsert lt x l ↔ a = x ∨ a ∈ l := by
  rw [(stableInsert_perm lt x l).mem_iff, List.mem_cons]

theorem stableInsert_pairwise {α : Type} (lt : α → α → Bool)
    (S : α → α → Prop)
    (hS1 : ∀ a b, lt a b = true → S a b)
    (hS2 : ∀ a b, lt a b = false → S b a)
    (hStr : ∀ a b c, S a b → S b c → S a c) (x : α) :
    ∀ l : List α, l.Pairwise S → (stableInsert lt x l).Pairwise S := by
  intro l
  induction l with
  | nil => intro _; simp [stableInsert]
  | cons y ys ih =>
    intro hl
    rcases List.pairwise_cons.mp hl with ⟨hy, hys⟩
    rw [stableInsert]
    by_cases h : lt y x = true
    · rw [if_pos h]
      refine List.pairwise_cons.mpr ⟨?_, ih hys⟩
      intro b hb
      rcases (mem_stableInsert lt x b ys).mp hb with hbx | hby
      · rw [hbx]; exact hS1 y x h
      · exact hy b hby
    · rw [if_neg h]
      refine List.pairwise_cons.mpr ⟨?_, hl⟩
      intro b hb
      rcases List.mem_cons.mp hb with hby | hbys
      · rw [hby]; exact hS2 y x (Bool.eq_false_iff.mpr h)
      · exact hStr x y b (hS2 y x (Bool.eq_false_iff.mpr h)) (hy b hbys)

theorem stableSort_pairwise {α : Type} (lt : α → α → Bool)
    (S : α → α → Prop)
    (hS1 : ∀ a b, lt a b = true → S a b)
    (hS2 : ∀ a b, lt a b = false → S b a)
    (hStr : ∀ a b c, S a b → S b c → S a c) :
    ∀ l : List α, (stableSort lt l).Pairwise S := by
  intro l
  induction l with
  | nil => exact List.Pairwise.nil
  | cons x xs ih =>
    exact stableInsert_pairwise lt S hS1 hS2 hStr x _ ih

/-! ### The redaction side builds the segment decomposition -/

theorem jsSlice_zero (s : List Char) (b : Nat) : jsSlice s 0 b = s.take b := by
  simp [jsSlice]

/-- The map component of the redaction fold ignores the text
component. -/
theorem redactHandle_fold_map (es : List Entity) :
    ∀ (D : List Char) (m : List (List Char × List Char)),
      (es.foldl redactHandleStep (D, m)).2 =
        es.foldl
          (fun m e => setAssocL m (makePlaceholder e.label e.text) e.text)
          m := by
  induction es with
  | nil => intro D m; rfl
  | cons e rest ih => intro D m; exact ih _ _

/-- Entities whose spans lie inside `D` never touch an appended
tail. -/
theorem redactHandle_fold_append :
    ∀ (es : List Entity) (D R : List Char)
      (m : List (List Char × List Char)),
      es.Pairwise (fun a b => b.stop ≤ a.start) →
      (∀ e ∈ es, e.start ≤ e.stop) →
      (∀ e ∈ es, e.stop ≤ D.length) →
      (es.foldl redactHandleStep (D ++ R, m)).1 =
        (es.foldl redactHandleStep (D, m)).1 ++ R := by
  intro es
  induction es with
  | nil => intro D R m _ _ _; rfl
  | cons e rest ih =>
    intro D R m hpw hse hstop
    rcases List.pairwise_cons.mp hpw with ⟨hhead, hrest⟩
    have hes : e.start ≤ e.stop := hse e (List.mem_cons_self e rest)
    have hel : e.stop ≤ D.length := hstop e (List.mem_cons_self e rest)
    have htake : (D ++ R).take e.start = D.take e.start := by
      rw [List.take_append_eq_append_take]
      have : e.start - D.length = 0 := by omega
      rw [this, List.take_zero, List.append_nil]
    have hdrop : (D ++ R).drop e.stop = D.drop e.stop ++ R := by
      rw [List.drop_append_eq_append_drop]
      have : e.stop - D.length = 0 := by omega
      rw [this, List.drop_zero]
    have hstep : redactHandleStep (D ++ R, m) e =
        ((D.take e.start ++ (makePlaceholder e.label e.text ++ D.drop e.stop))
           ++ R,
         setAssocL m (makePlaceholder e.label e.text) e.text) := by
      simp only [redactHandleStep, jsSlice_zero, htake, hdrop]
      simp [List.append_assoc]
    have hstep2 : redactHandleStep (D, m) e =
        (D.take e.start ++ (makePlaceholder e.label e.text ++ D.drop e.stop),
         setAssocL m (makePlaceholder e.label e.text) e.text) := by
      simp only [redactHandleStep, jsSlice_zero]
      simp [List.append_assoc]
    rw [List.foldl_cons, List.foldl_cons, hstep, hstep2]
    apply ih _ R _ hrest (fun e' h' => hse e' (List.mem_cons_of_mem e h'))
    intro e' h'
    have h1 : e'.stop ≤ e.start := hhead e' h'
    have h2 : e.start ≤
        (D.take e.start ++
          (makePlaceholder e.label e.text ++ D.drop e.stop)).length := by
      simp only [List.length_append, List.length_take]
      omega
    omega

/-- The redaction fold over a start-descending, pairwise disjoint,
in-range entity list produces exactly the rendered segment
decomposition. -/
theorem redactHandle_fold_segs :
    ∀ (es : List Entity) (doc : List Char)
      (m : List (List Char × List Char)),
      es.Pairwise (fun a b => b.stop ≤ a.start) →
      (∀ e ∈ es, e.start ≤ e.stop) →
      (∀ e ∈ es, e.stop ≤ doc.length) →
      (es.foldl redactHandleStep (doc, m)).1 =
        renderPSegs (buildPSegs doc es) := by
  intro es
  induction es with
  | nil =>
    intro doc m _ _ _
    simp [buildPSegs, renderPSegs, renderPSeg]
  | cons e rest ih =>
    intro doc m hpw hse hstop
    rcases List.pairwise_cons.mp hpw with ⟨hhead, hrest⟩
    have hes : e.start ≤ e.stop := hse e (List.mem_cons_self e rest)
    have hel : e.stop ≤ doc.length := hstop e (List.mem_cons_self e rest)
    have hstep : redactHandleStep (doc, m) e =
        (doc.take e.start ++
           (makePlaceholder e.label e.text ++ doc.drop e.stop),
         setAssocL m (makePlaceholder e.label e.text) e.text) := by
      simp only [redactHandleStep, jsSlice_zero]
      simp [List.append_assoc]
    rw [List.foldl_cons, hstep]
    have happ := redactHandle_fold_append rest (doc.take e.start)
      (makePlaceholder e.label e.text ++ doc.drop e.stop)
      (setAssocL m (makePlaceholder e.label e.text) e.text)
      hrest (fun e' h' => hse e' (List.mem_cons_of_mem e h'))
      (by
        intro e' h'
        have h1 : e'.stop ≤ e.start := hhead e' h'
        simp only [List.length_take]
        omega)
    rw [happ]
    rw [ih (doc.take e.start) _ hrest
      (fun e' h' => hse e' (List.mem_cons_of_mem e h'))
      (by
        intro e' h'
        have h1 : e'.stop ≤ e.start := hhead e' h'
        simp only [List.length_take]
        omega)]
    rw [buildPSegs, renderPSegs_append]
    simp [renderPSegs, renderPSeg]

/-- Rendering the original text of each segment reconstructs the
document, provided spans are exact, in-range and descending. -/
theorem buildPSegs_orig :
    ∀ (es : List Entity) (doc : List Char),
      es.Pairwise (fun a b => b.stop ≤ a.start) →
      (∀ e ∈ es, e.start ≤ e.stop ∧ e.stop ≤ doc.length ∧
        jsSlice doc e.start e.stop = e.text) →
      origPSegs (buildPSegs doc es) = doc := by
  intro es
  induction es with
  | nil =>
    intro doc _ _
    simp [buildPSegs, origPSegs, origPSeg]
  | cons e rest ih =>
    intro doc hpw hok
    rcases List.pairwise_cons.mp hpw with ⟨hhead, hrest⟩
    rcases hok e (List.mem_cons_self e rest) with ⟨hes, hel, hex⟩
    rw [buildPSegs, origPSegs_append]
    have hind : origPSegs (buildPSegs (doc.take e.start) rest) =
        doc.take e.start := by
      apply ih _ hrest
      intro e' h'
      rcases hok e' (List.mem_cons_of_mem e h') with ⟨h1, _, h3⟩
      have h4 : e'.stop ≤ e.start := hhead e' h'
      refine ⟨h1, by simp only [List.length_take]; omega, ?_⟩
      rw [jsSlice] at h3 ⊢
      rw [List.take_take]
      have : min e'.stop e.start = e'.stop := by omega
      rw [this, h3]
    rw [hind]
    simp only [origPSegs, origPSeg, List.map_cons, List.map_nil,
      List.flatten_cons, List.flatten_nil, List.append_nil]
    rw [← hex, jsSlice]
    have h1 : doc.take e.start = (doc.take e.stop).take e.start := by
      rw [List.take_take]
      have : min e.start e.stop = e.start := by omega
      rw [this]
    rw [h1, ← List.append_assoc, List.take_append_drop,
      List.take_append_drop]

/-! ### Placeholder shape: `[LABEL_HASH]` with bracket-free interior -/

def phKey (e : Entity) : List Char :=
  e.label.toList ++ '_' :: simpleHash (lowerStr e.text)

theorem makePlaceholder_shape (e : Entity) :
    makePlaceholder e.label e.text = '[' :: (phKey e ++ [']']) := by
  simp [makePlaceholder, phKey]

theorem char_toNat_ofNat (n : Nat) (h : n < 55296) :
    (Char.ofNat n).toNat = n := by
  unfold Char.ofNat
  rw [dif_pos (Or.inl h)]
  rfl

theorem char_le_toNat {a b : Char} (h : a ≤ b) : a.toNat ≤ b.toNat := by
  rw [Char.le_def] at h
  exact h

theorem jsUpper_lower_bounds (c : Char) (h : 'a' ≤ c ∧ c ≤ 'z') :
    65 ≤ (jsUpper c).toNat ∧ (jsUpper c).toNat ≤ 90 := by
  have h1 := char_le_toNat h.1
  have h2 := char_le_toNat h.2
  have ha : ('a' : Char).toNat = 97 := by decide
  have hz : ('z' : Char).toNat = 122 := by decide
  rw [ha] at h1; rw [hz] at h2
  rw [jsUpper, if_pos h, char_toNat_ofNat _ (by omega)]
  omega

theorem jsUpper_lower_ne_bracket (c : Char) (h : 'a' ≤ c ∧ c ≤ 'z') :
    jsUpper c ≠ '[' ∧ jsUpper c ≠ ']' := by
  have hb := jsUpper_lower_bounds c h
  constructor <;> intro hc <;> rw [hc] at hb
  · have : ('[' : Char).toNat = 91 := by decide
    omega
  · have : (']' : Char).toNat = 93 := by decide
    omega

theorem jsUpper_digit_ne_bracket (c : Char) (h : isDigit c = true) :
    jsUpper c ≠ '[' ∧ jsUpper c ≠ ']' := by
  simp only [isDigit, decide_eq_true_eq] at h
  have h1 := char_le_toNat h.1
  have h2 := char_le_toNat h.2
  have h0 : ('0' : Char).toNat = 48 := by decide
  have h9 : ('9' : Char).toNat = 57 := by decide
  rw [h0] at h1; rw [h9] at h2
  have hno : ¬ ('a' ≤ c ∧ c ≤ 'z') := by
    rintro ⟨hl, _⟩
    have := char_le_toNat hl
    have ha : ('a' : Char).toNat = 97 := by decide
    omega
  rw [jsUpper, if_neg hno]
  constructor <;> intro hc <;> rw [hc] at h2
  · have : ('[' : Char).toNat = 91 := by decide
    omega
  · have : (']' : Char).toNat = 93 := by decide
    omega

theorem base36Char_class (n : Nat) (h : n < 36) :
    isDigit (base36Char n) = true ∨
      ('a' ≤ base36Char n ∧ base36Char n ≤ 'z') := by
  interval_cases n <;> decide

theorem toBase36Go_class :
    ∀ (f n : Nat), ∀ c ∈ toBase36Go f n,
      isDigit c = true ∨ ('a' ≤ c ∧ c ≤ 'z') := by
  intro f
  induction f with
  | zero => intro n c hc; simp [toBase36Go] at hc
  | succ f ih =>
    intro n c hc
    rw [toBase36Go] at hc
    by_cases h : n < 36
    · rw [if_pos h] at hc
      rcases List.mem_singleton.mp hc with rfl
      exact base36Char_class n h
    · rw [if_neg h] at hc
      rcases List.mem_append.mp hc with h1 | h1
      · exact ih _ c h1
      · rcases List.mem_singleton.mp h1 with rfl
        exact base36Char_class _ (Nat.mod_lt n (by omega))

theorem noBrackets_simpleHash (s : List Char) :
    noBrackets (simpleHash s) = true := by
  rw [simpleHash, upperStr, noBrackets, List.all_map, List.all_eq_true]
  intro c hc
  have hcls := toBase36Go_class _ _ c (List.take_subset 8 _ hc)
  simp only [Function.comp_apply, decide_eq_true_eq]
  rcases hcls with h | h
  · exact jsUpper_digit_ne_bracket c h
  · exact jsUpper_lower_ne_bracket c h

theorem noBrackets_append {a b : List Char} (ha : noBrackets a = true)
    (hb : noBrackets b = true) : noBrackets (a ++ b) = true := by
  rw [noBrackets, List.all_append]
  rw [noBrackets] at ha hb
  rw [ha, hb]
  rfl

theorem noBrackets_phKey (e : Entity)
    (hl : noBrackets e.label.toList = true) : noBrackets (phKey e) = true := by
  rw [phKey]
  apply noBrackets_append hl
  rw [noBrackets, List.all_cons]
  have h2 := noBrackets_simpleHash (lowerStr e.text)
  rw [noBrackets] at h2
  rw [h2]
  decide

theorem noBrackets_mem {cs : List Char} {c : Char}
    (h : noBrackets cs = true) (hc : c ∈ cs) : c ≠ '[' ∧ c ≠ ']' := by
  rw [noBrackets, List.all_eq_true] at h
  simpa using h c hc

/-- Two bracket-free strings terminated by `]` are prefix-comparable
only when equal: the first `]` delimits. -/
theorem bracket_delim_prefix :
    ∀ (pi qi r : List Char), noBrackets pi = true → noBrackets qi = true →
      (pi ++ [']']).isPrefixOf (qi ++ ']' :: r) = true → pi = qi := by
  intro pi
  induction pi with
  | nil =>
    intro qi r _ hq hpre
    cases qi with
    | nil => rfl
    | cons b qs =>
      exfalso
      simp only [List.nil_append, List.cons_append] at hpre
      have : (']' == b && [].isPrefixOf (qs ++ ']' :: r)) = true := hpre
      rw [Bool.and_eq_true, beq_iff_eq] at this
      exact (noBrackets_mem hq (List.mem_cons_self b qs)).2 this.1.symm
  | cons a ps ih =>
    intro qi r hp hq hpre
    cases qi with
    | nil =>
      exfalso
      simp only [List.cons_append, List.nil_append] at hpre
      have : (a == ']' && (ps ++ [']']).isPrefixOf r) = true := hpre
      rw [Bool.and_eq_true, beq_iff_eq] at this
      exact (noBrackets_mem hp (List.mem_cons_self a ps)).2 this.1
    | cons b qs =>
      simp only [List.cons_append] at hpre
      have : (a == b && (ps ++ [']']).isPrefixOf (qs ++ ']' :: r)) = true :=
        hpre
      rw [Bool.and_eq_true, beq_iff_eq] at this
      have hps : noBrackets ps = true := by
        rw [noBrackets, List.all_cons, Bool.and_eq_true] at hp
        exact hp.2
      have hqs : noBrackets qs = true := by
        rw [noBrackets, List.all_cons, Bool.and_eq_true] at hq
        exact hq.2
      rw [this.1, ih qs r hps hqs this.2]

/-- Distinct bracket-free interiors make distinct placeholders
prefix-incompatible. -/
theorem bracketed_prefix_eq {pin qin : List Char} (r : List Char)
    (hp : noBrackets pin = true) (hq : noBrackets qin = true)
    (hpre : ('[' :: (pin ++ [']'])).isPrefixOf
      (('[' :: (qin ++ [']'])) ++ r) = true) : pin = qin := by
  simp only [List.cons_append] at hpre
  have : ('[' == '[' &&
      (pin ++ [']']).isPrefixOf ((qin ++ [']']) ++ r)) = true := hpre
  rw [Bool.and_eq_true] at this
  have h2 := this.2
  rw [List.append_assoc, List.singleton_append] at h2
  exact bracket_delim_prefix pin qin r hp hq h2

/-! ### The split/join unredactor over a segment decomposition -/

theorem replaceAllLitGo_nil (needle repl : List Char) :
    ∀ f, replaceAllLitGo needle repl f [] = [] := by
  intro f; cases f <;> rfl

theorem replaceAllLitGo_fuel (needle repl : List Char) (hne : needle ≠ []) :
    ∀ (f1 f2 : Nat) (s : List Char), s.length ≤ f1 → s.length ≤ f2 →
      replaceAllLitGo needle repl f1 s = replaceAllLitGo needle repl f2 s := by
  intro f1
  induction f1 with
  | zero =>
    intro f2 s h1 _
    have : s = [] := List.eq_nil_of_length_eq_zero (by omega)
    rw [this, replaceAllLitGo_nil, replaceAllLitGo_nil]
  | succ f1 ih =>
    intro f2 s h1 h2
    cases s with
    | nil => rw [replaceAllLitGo_nil, replaceAllLitGo_nil]
    | cons c rest =>
      have hlen : rest.length + 1 ≤ f2 := by
        simpa using h2
      cases f2 with
      | zero => omega
      | succ f2 =>
        rw [replaceAllLitGo, replaceAllLitGo]
        by_cases hpre : needle.isPrefixOf (c :: rest) = true
        · rw [if_pos hpre, if_pos hpre]
          have hn1 : 1 ≤ needle.length := by
            cases needle with
            | nil => exact absurd rfl hne
            | cons a as => simp
          refine congrArg (repl ++ ·) (ih f2 _ ?_ ?_) <;>
            simp only [List.length_drop, List.length_cons] at * <;> omega
        · rw [if_neg hpre, if_neg hpre]
          refine congrArg (c :: ·) (ih f2 rest ?_ ?_) <;>
            simp only [List.length_cons] at * <;> omega

/-- Scanning a `[`-free chunk with a `[`-headed needle copies the
chunk verbatim. -/
theorem replaceAllLitGo_lit (ntl repl : List Char) :
    ∀ (cs : List Char) (f : Nat) (r : List Char), bracketFree cs = true →
      replaceAllLitGo ('[' :: ntl) repl (cs.length + f) (cs ++ r) =
        cs ++ replaceAllLitGo ('[' :: ntl) repl f r := by
  intro cs
  induction cs with
  | nil =>
    intro f r _
    rw [List.nil_append, List.length_nil, Nat.zero_add, List.nil_append]
  | cons c cs ih =>
    intro f r hbf
    rw [bracketFree, List.all_cons, Bool.and_eq_true] at hbf
    have hc : c ≠ '[' := by simpa using hbf.1
    have hf : (c :: cs).length + f = (cs.length + f) + 1 := by
      simp only [List.length_cons]; omega
    rw [hf, List.cons_append, replaceAllLitGo]
    have hpre : ('[' :: ntl).isPrefixOf (c :: (cs ++ r)) = false := by
      have : ('[' :: ntl).isPrefixOf (c :: (cs ++ r))
          = ('[' == c && ntl.isPrefixOf (cs ++ r)) := rfl
      rw [this]
      have : ('[' == c) = false := by
        rw [beq_eq_false_iff_ne]
        exact fun h => hc h.symm
      rw [this, Bool.false_and]
    rw [if_neg (by rw [hpre]; exact Bool.false_ne_true)]
    rw [ih f r (by rw [bracketFree]; exact hbf.2), List.cons_append]

/-- The needle consumes its own rendering in one step. -/
theorem replaceAllLitGo_ph_match (pin repl : List Char) (f : Nat)
    (r : List Char) :
    replaceAllLitGo ('[' :: (pin ++ [']'])) repl (f + 1)
        (('[' :: (pin ++ [']'])) ++ r) =
      repl ++ replaceAllLitGo ('[' :: (pin ++ [']'])) repl f r := by
  rw [List.cons_append, replaceAllLitGo]
  have hpre : ('[' :: (pin ++ [']'])).isPrefixOf
      ('[' :: ((pin ++ [']']) ++ r)) = true := by
    rw [← List.cons_append]
    exact List.isPrefixOf_iff_prefix.mpr (List.prefix_append _ _)
  rw [if_pos hpre]
  have hdrop : ('[' :: ((pin ++ [']']) ++ r)).drop
      ('[' :: (pin ++ [']'])).length = r := by
    rw [← List.cons_append]
    exact List.drop_left _ _
  rw [hdrop]

/-- A placeholder with a different bracket-free interior is copied
verbatim. -/
theorem replaceAllLitGo_ph_other (pin qin repl : List Char) (f : Nat)
    (r : List Char) (hp : noBrackets pin = true) (hq : noBrackets qin = true)
    (hne : pin ≠ qin) :
    replaceAllLitGo ('[' :: (pin ++ [']'])) repl (qin.length + 2 + f)
        (('[' :: (qin ++ [']'])) ++ r) =
      ('[' :: (qin ++ [']'])) ++
        replaceAllLitGo ('[' :: (pin ++ [']'])) repl f r := by
  have hf : qin.length + 2 + f = (qin.length + (1 + f)) + 1 := by omega
  rw [hf, List.cons_append, replaceAllLitGo]
  have hpre : ('[' :: (pin ++ [']'])).isPrefixOf
      ('[' :: ((qin ++ [']']) ++ r)) = false := by
    cases h : ('[' :: (pin ++ [']'])).isPrefixOf
        ('[' :: ((qin ++ [']']) ++ r)) with
    | false => rfl
    | true =>
      exfalso
      rw [← List.cons_append] at h
      exact hne (bracketed_prefix_eq r hp hq h)
  rw [if_neg (by rw [hpre]; exact Bool.false_ne_true)]
  have hshape : (qin ++ [']']) ++ r = qin ++ (']' :: r) := by
    rw [List.append_assoc, List.singleton_append]
  rw [hshape]
  have hqbf : bracketFree qin = true := by
    rw [bracketFree, List.all_eq_true]
    intro c hc
    simpa using (noBrackets_mem hq hc).1
  rw [replaceAllLitGo_lit (pin ++ [']']) repl qin (1 + f) (']' :: r) hqbf]
  have h1f : 1 + f = f + 1 := by omega
  rw [h1f, replaceAllLitGo]
  have hpre2 : ('[' :: (pin ++ [']'])).isPrefixOf (']' :: r) = false := by
    have : ('[' :: (pin ++ [']'])).isPrefixOf (']' :: r)
        = ('[' == ']' && (pin ++ [']']).isPrefixOf r) := rfl
    rw [this]
    have hb : ('[' == ']') = false := by decide
    rw [hb, Bool.false_and]
  rw [if_neg (by rw [hpre2]; exact Bool.false_ne_true)]
  simp [List.cons_append, List.append_assoc]

def psegWF : PSeg → Bool
  | .lit cs => bracketFree cs
  | .ph e => noBrackets e.label.toList

def psegsWF (segs : List PSeg) : Bool := segs.all psegWF

/-- The effect of one `split(needle).join(repl)` pass on one
segment. -/
def replacePh (needle repl : List Char) : PSeg → PSeg
  | .lit cs => .lit cs
  | .ph e =>
    if makePlaceholder e.label e.text = needle then .lit repl else .ph e

theorem makePlaceholder_eq_iff (e : Entity) (pin : List Char) :
    makePlaceholder e.label e.text = '[' :: (pin ++ [']']) ↔
      phKey e = pin := by
  rw [makePlaceholder_shape]
  constructor
  · intro h
    exact List.append_cancel_right (List.cons_injective h)
  · intro h
    rw [h]

/-- One `split/join` pass over a rendered segment list acts
segment-wise. -/
theorem replaceAllLitGo_psegs (pin repl : List Char)
    (hpin : noBrackets pin = true) :
    ∀ (segs : List PSeg) (r : List Char) (f : Nat),
      psegsWF segs = true →
      (renderPSegs segs ++ r).length ≤ f →
      replaceAllLitGo ('[' :: (pin ++ [']'])) repl f
          (renderPSegs segs ++ r) =
        renderPSegs (segs.map (replacePh ('[' :: (pin ++ [']'])) repl)) ++
          replaceAllLitGo ('[' :: (pin ++ [']'])) repl r.length r := by
  intro segs
  induction segs with
  | nil =>
    intro r f _ hf
    simp only [renderPSegs, List.map_nil, List.flatten_nil,
      List.nil_append] at *
    exact replaceAllLitGo_fuel _ repl (by simp) f r.length r hf (le_refl _)
  | cons seg rest ih =>
    intro r f hwf hf
    have hwf1 : psegWF seg = true := by
      rw [psegsWF, List.all_cons, Bool.and_eq_true] at hwf
      exact hwf.1
    have hwf2 : psegsWF rest = true := by
      rw [psegsWF, List.all_cons, Bool.and_eq_true] at hwf
      exact hwf.2
    have hrender : renderPSegs (seg :: rest) =
        renderPSeg seg ++ renderPSegs rest := by
      simp [renderPSegs]
    rw [hrender, List.append_assoc] at hf ⊢
    cases seg with
    | lit cs =>
      have hcs : bracketFree cs = true := hwf1
      have hfuel : f = cs.length + (f - cs.length) := by
        simp only [List.length_append, renderPSeg] at hf
        omega
      rw [show renderPSeg (PSeg.lit cs) = cs from rfl] at hf ⊢
      rw [hfuel, replaceAllLitGo_lit (pin ++ [']']) repl cs _ _ hcs]
      rw [ih r (f - cs.length) hwf2
        (by simp only [List.length_append] at hf ⊢; omega)]
      simp only [List.map_cons, replacePh]
      rw [show renderPSegs (PSeg.lit cs :: List.map
        (replacePh ('[' :: (pin ++ [']'])) repl) rest) =
        cs ++ renderPSegs (List.map (replacePh ('[' :: (pin ++ [']'])) repl)
          rest) from by simp [renderPSegs, renderPSeg]]
      rw [List.append_assoc]
    | ph e =>
      have hlab : noBrackets e.label.toList = true := hwf1
      have hq := noBrackets_phKey e hlab
      have hren : renderPSeg (PSeg.ph e) = '[' :: (phKey e ++ [']']) :=
        makePlaceholder_shape e
      rw [hren] at hf ⊢
      have hlen : (phKey e).length + 2 ≤ f := by
        simp only [List.length_append, List.length_cons] at hf
        omega
      by_cases heq : phKey e = pin
      · have hfuel : f = (f - 1) + 1 := by omega
        rw [heq, hfuel, replaceAllLitGo_ph_match pin repl (f - 1) _]
        rw [ih r (f - 1) hwf2 (by
          simp only [List.length_append, List.length_cons] at hf ⊢
          omega)]
        simp only [List.map_cons, replacePh]
        rw [if_pos ((makePlaceholder_eq_iff e pin).mpr heq)]
        rw [show renderPSegs (PSeg.lit repl :: List.map
          (replacePh ('[' :: (pin ++ [']'])) repl) rest) =
          repl ++ renderPSegs (List.map (replacePh ('[' :: (pin ++ [']'])) repl)
            rest) from by simp [renderPSegs, renderPSeg]]
        rw [List.append_assoc]
      · have hfuel : f = (phKey e).length + 2 + (f - ((phKey e).length + 2)) := by
          omega
        rw [hfuel, replaceAllLitGo_ph_other pin (phKey e) repl _ _ hpin hq
          (fun h => heq h.symm)]
        rw [ih r (f - ((phKey e).length + 2)) hwf2 (by
          simp only [List.length_append, List.length_cons] at hf ⊢
          omega)]
        simp only [List.map_cons, replacePh]
        rw [if_neg (fun h => heq ((makePlaceholder_eq_iff e pin).mp h))]
        rw [show renderPSegs (PSeg.ph e :: List.map
          (replacePh ('[' :: (pin ++ [']'])) repl) rest) =
          ('[' :: (phKey e ++ [']'])) ++
            renderPSegs (List.map (replacePh ('[' :: (pin ++ [']'])) repl)
              rest) from by simp [renderPSegs, renderPSeg, makePlaceholder_shape]]
        rw [List.append_assoc]

theorem replacePh_wf (needle repl : List Char)
    (hrepl : bracketFree repl = true) :
    ∀ seg, psegWF seg = true → psegWF (replacePh needle repl seg) = true := by
  intro seg hseg
  cases seg with
  | lit cs => exact hseg
  | ph e =>
    rw [replacePh]
    by_cases h : makePlaceholder e.label e.text = needle
    · rw [if_pos h]; exact hrepl
    · rw [if_neg h]; exact hseg

theorem psegsWF_map_replacePh (needle repl : List Char)
    (hrepl : bracketFree repl = true) (segs : List PSeg)
    (h : psegsWF segs = true) :
    psegsWF (segs.map (replacePh needle repl)) = true := by
  rw [psegsWF, List.all_map, List.all_eq_true]
  rw [psegsWF, List.all_eq_true] at h
  intro seg hseg
  exact replacePh_wf needle repl hrepl seg (h seg hseg)

/-- The whole unredaction fold acts segment-wise on a rendered WF
segment list, when every map key is a bracket-delimited placeholder
and every value is `[`-free. -/
theorem foldl_replaceAllLit_segs :
    ∀ (entries : List (List Char × List Char)) (segs : List PSeg),
      psegsWF segs = true →
      (∀ p ∈ entries,
        (∃ pin, p.1 = '[' :: (pin ++ [']']) ∧ noBrackets pin = true) ∧
          bracketFree p.2 = true) →
      entries.foldl (fun res p => replaceAllLit res p.1 p.2)
          (renderPSegs segs) =
        renderPSegs (segs.map
          (fun sg => entries.foldl (fun sg p => replacePh p.1 p.2 sg) sg)) := by
  intro entries
  induction entries with
  | nil =>
    intro segs _ _
    simp
  | cons p rest ih =>
    intro segs hwf hsh
    rcases hsh p (List.mem_cons_self p rest) with ⟨⟨pin, hpshape, hpin⟩, hval⟩
    rw [List.foldl_cons]
    have h1 : replaceAllLit (renderPSegs segs) p.1 p.2 =
        renderPSegs (segs.map (replacePh p.1 p.2)) := by
      rw [replaceAllLit, hpshape]
      rw [if_neg (by simp)]
      have h2 := replaceAllLitGo_psegs pin p.2 hpin segs [] (renderPSegs segs).length
        hwf (by simp)
      rw [List.append_nil] at h2
      rw [h2, List.length_nil, replaceAllLitGo_nil, List.append_nil]
    rw [h1, ih (segs.map (replacePh p.1 p.2))
      (psegsWF_map_replacePh p.1 p.2 hval segs hwf)
      (fun q hq => hsh q (List.mem_cons_of_mem p hq))]
    rw [List.map_map]
    rfl

theorem foldl_replacePh_lit (entries : List (List Char × List Char))
    (cs : List Char) :
    entries.foldl (fun sg p => replacePh p.1 p.2 sg) (PSeg.lit cs) =
      PSeg.lit cs := by
  induction entries with
  | nil => rfl
  | cons p rest ih => exact ih

theorem foldl_replacePh_ph (e : Entity) :
    ∀ (entries : List (List Char × List Char)),
      entries.foldl (fun sg p => replacePh p.1 p.2 sg) (PSeg.ph e) =
        (match List.lookup (makePlaceholder e.label e.text) entries with
         | some v => PSeg.lit v
         | none => PSeg.ph e) := by
  intro entries
  induction entries with
  | nil => rfl
  | cons p rest ih =>
    rcases p with ⟨k, v⟩
    rw [List.foldl_cons]
    by_cases h : makePlaceholder e.label e.text = k
    · rw [show replacePh (k, v).1 (k, v).2 (PSeg.ph e) = PSeg.lit v from by
        rw [replacePh]; exact if_pos h]
      rw [foldl_replacePh_lit]
      rw [List.lookup_cons]
      rw [show (makePlaceholder e.label e.text == k) = true from
        beq_iff_eq.mpr h]
    · rw [show replacePh (k, v).1 (k, v).2 (PSeg.ph e) = PSeg.ph e from by
        rw [replacePh]; exact if_neg h]
      rw [ih, List.lookup_cons]
      rw [show (makePlaceholder e.label e.text == k) = false from
        beq_eq_false_iff_ne.mpr h]

/-! ### The recorded map resolves every redacted entity -/

theorem mem_setAssocL :
    ∀ (m : List (List Char × List Char)) (k v : List Char)
      (p : List Char × List Char),
      p ∈ setAssocL m k v → p ∈ m ∨ p = (k, v) := by
  intro m
  induction m with
  | nil =>
    intro k v p hp
    rw [setAssocL] at hp
    exact Or.inr (List.mem_singleton.mp hp)
  | cons q rest ih =>
    intro k v p hp
    rcases q with ⟨k2, v2⟩
    rw [setAssocL] at hp
    by_cases h : k2 = k
    · rw [if_pos h] at hp
      rcases List.mem_cons.mp hp with h1 | h1
      · exact Or.inr h1
      · exact Or.inl (List.mem_cons_of_mem _ h1)
    · rw [if_neg h] at hp
      rcases List.mem_cons.mp hp with h1 | h1
      · exact Or.inl (by rw [h1]; exact List.mem_cons_self _ _)
      · rcases ih k v p h1 with h2 | h2
        · exact Or.inl (List.mem_cons_of_mem _ h2)
        · exact Or.inr h2

theorem lookup_setAssocL_self :
    ∀ (m : List (List Char × List Char)) (k v : List Char),
      List.lookup k (setAssocL m k v) = some v := by
  intro m
  induction m with
  | nil =>
    intro k v
    rw [setAssocL, List.lookup_cons, beq_self_eq_true]
  | cons q rest ih =>
    intro k v
    rcases q with ⟨k2, v2⟩
    rw [setAssocL]
    by_cases h : k2 = k
    · rw [if_pos h, List.lookup_cons, beq_self_eq_true]
    · rw [if_neg h, List.lookup_cons,
        show (k == k2) = false from beq_eq_false_iff_ne.mpr
          (fun hx => h hx.symm), ih]

theorem lookup_setAssocL_ne :
    ∀ (m : List (List Char × List Char)) (k v k' : List Char), k' ≠ k →
      List.lookup k' (setAssocL m k v) = List.lookup k' m := by
  intro m
  induction m with
  | nil =>
    intro k v k' hne
    rw [setAssocL, List.lookup_cons,
      show (k' == k) = false from beq_eq_false_iff_ne.mpr hne]
  | cons q rest ih =>
    intro k v k' hne
    rcases q with ⟨k2, v2⟩
    rw [setAssocL]
    by_cases h : k2 = k
    · rw [if_pos h, h, List.lookup_cons, List.lookup_cons,
        show (k' == k) = false from beq_eq_false_iff_ne.mpr hne]
    · rw [if_neg h, List.lookup_cons, List.lookup_cons, ih k v k' hne]

/-- The update function of the recorded map. -/
def recordPh (m : List (List Char × List Char)) (e : Entity) :
    List (List Char × List Char) :=
  setAssocL m (makePlaceholder e.label e.text) e.text

theorem mem_foldl_recordPh :
    ∀ (es : List Entity) (m : List (List Char × List Char))
      (p : List Char × List Char),
      p ∈ es.foldl recordPh m →
      p ∈ m ∨ ∃ e ∈ es, p = (makePlaceholder e.label e.text, e.text) := by
  intro es
  induction es with
  | nil => intro m p hp; exact Or.inl hp
  | cons e rest ih =>
    intro m p hp
    rw [List.foldl_cons] at hp
    rcases ih _ p hp with h1 | ⟨e', he', hpe⟩
    · rcases mem_setAssocL m _ _ p h1 with h2 | h2
      · exact Or.inl h2
      · exact Or.inr ⟨e, List.mem_cons_self e rest, h2⟩
    · exact Or.inr ⟨e', List.mem_cons_of_mem e he', hpe⟩

theorem lookup_foldl_recordPh_preserve :
    ∀ (es : List Entity) (m : List (List Char × List Char))
      (k v : List Char),
      (∀ e ∈ es, makePlaceholder e.label e.text = k → e.text = v) →
      List.lookup k m = some v →
      List.lookup k (es.foldl recordPh m) = some v := by
  intro es
  induction es with
  | nil => intro m k v _ h; exact h
  | cons e rest ih =>
    intro m k v hcons h
    rw [List.foldl_cons]
    apply ih _ k v (fun e' h' => hcons e' (List.mem_cons_of_mem e h'))
    by_cases heq : makePlaceholder e.label e.text = k
    · rw [recordPh, heq, lookup_setAssocL_self]
      rw [hcons e (List.mem_cons_self e rest) heq]
    · rw [recordPh, lookup_setAssocL_ne _ _ _ _
        (fun hx => heq hx.symm)]
      exact h

theorem lookup_foldl_recordPh_mem :
    ∀ (es : List Entity) (m : List (List Char × List Char)) (e : Entity),
      e ∈ es →
      (∀ e1 ∈ es, makePlaceholder e1.label e1.text =
        makePlaceholder e.label e.text → e1.text = e.text) →
      (List.lookup (makePlaceholder e.label e.text) m = none ∨
        List.lookup (makePlaceholder e.label e.text) m = some e.text) →
      List.lookup (makePlaceholder e.label e.text) (es.foldl recordPh m) =
        some e.text := by
  intro es
  induction es with
  | nil => intro m e he; exact absurd he (List.not_mem_nil e)
  | cons e0 rest ih =>
    intro m e he hcoll hm
    rw [List.foldl_cons]
    by_cases hmem : e ∈ rest
    · apply ih _ e hmem
        (fun e1 h1 => hcoll e1 (List.mem_cons_of_mem e0 h1))
      by_cases heq : makePlaceholder e0.label e0.text =
          makePlaceholder e.label e.text
      · right
        rw [recordPh, heq, lookup_setAssocL_self]
        rw [hcoll e0 (List.mem_cons_self e0 rest) heq]
      · rw [recordPh, lookup_setAssocL_ne _ _ _ _
          (fun hx => heq hx.symm)]
        exact hm
    · have he0 : e = e0 := by
        rcases List.mem_cons.mp he with h | h
        · exact h
        · exact absurd h hmem
      apply lookup_foldl_recordPh_preserve rest _ _ _
        (fun e1 h1 heq => hcoll e1 (List.mem_cons_of_mem e0 h1) heq)
      rw [recordPh, he0, lookup_setAssocL_self]

theorem bracketFree_sublist {a b : List Char} (h : a.Sublist b)
    (hb : bracketFree b = true) : bracketFree a = true := by
  rw [bracketFree, List.all_eq_true] at *
  exact fun c hc => hb c (h.mem hc)

theorem buildPSegs_wf :
    ∀ (es : List Entity) (doc : List Char), bracketFree doc = true →
      (∀ e ∈ es, noBrackets e.label.toList = true) →
      psegsWF (buildPSegs doc es) = true := by
  intro es
  induction es with
  | nil =>
    intro doc hdoc _
    rw [buildPSegs, psegsWF, List.all_cons]
    rw [show psegWF (PSeg.lit doc) = bracketFree doc from rfl, hdoc]
    rfl
  | cons e rest ih =>
    intro doc hdoc hlab
    rw [buildPSegs, psegsWF, List.all_append]
    have h1 : psegsWF (buildPSegs (doc.take e.start) rest) = true :=
      ih _ (bracketFree_sublist (doc.take_sublist e.start) hdoc)
        (fun e' h' => hlab e' (List.mem_cons_of_mem e h'))
    rw [psegsWF] at h1
    rw [h1]
    have h2 : psegWF (PSeg.ph e) = true :=
      hlab e (List.mem_cons_self e rest)
    have h3 : psegWF (PSeg.lit (doc.drop e.stop)) = true :=
      bracketFree_sublist (doc.drop_sublist e.stop) hdoc
    simp [h2, h3]

theorem mem_ph_buildPSegs :
    ∀ (es : List Entity) (doc : List Char) (e : Entity),
      PSeg.ph e ∈ buildPSegs doc es → e ∈ es := by
  intro es
  induction es with
  | nil =>
    intro doc e he
    rw [buildPSegs] at he
    rcases List.mem_singleton.mp he with h
    exact absurd h (by simp)
  | cons e0 rest ih =>
    intro doc e he
    rw [buildPSegs] at he
    rcases List.mem_append.mp he with h | h
    · exact List.mem_cons_of_mem e0 (ih _ e h)
    · rcases List.mem_cons.mp h with h1 | h1
      · rw [List.mem_cons]
        left
        exact (PSeg.ph.injEq e e0).mp h1
      · exact absurd (List.mem_singleton.mp h1) (by simp)

theorem renderPSegs_resolve (entries : List (List Char × List Char)) :
    ∀ segs : List PSeg,
      (∀ e : Entity, PSeg.ph e ∈ segs →
        List.lookup (makePlaceholder e.label e.text) entries =
          some e.text) →
      renderPSegs (segs.map
          (fun sg => entries.foldl (fun sg p => replacePh p.1 p.2 sg) sg)) =
        origPSegs segs := by
  intro segs
  induction segs with
  | nil => intro _; rfl
  | cons seg rest ih =>
    intro hlook
    rw [List.map_cons]
    rw [show renderPSegs ((entries.foldl (fun sg p => replacePh p.1 p.2 sg)
      seg) :: (rest.map
        (fun sg => entries.foldl (fun sg p => replacePh p.1 p.2 sg) sg))) =
      renderPSeg (entries.foldl (fun sg p => replacePh p.1 p.2 sg) seg) ++
        renderPSegs (rest.map
          (fun sg => entries.foldl (fun sg p => replacePh p.1 p.2 sg) sg))
      from by simp [renderPSegs]]
    rw [ih (fun e he => hlook e (List.mem_cons_of_mem seg he))]
    rw [show origPSegs (seg :: rest) = origPSeg seg ++ origPSegs rest from
      by simp [origPSegs]]
    cases seg with
    | lit cs =>
      rw [foldl_replacePh_lit]
      rfl
    | ph e =>
      rw [foldl_replacePh_ph, hlook e (List.mem_cons_self _ _)]
      rfl

/-- The positional round trip for the reversible redact/unredact
handler pair, under exact in-range pairwise disjoint spans, a
bracket-free document and labels, and placeholder-collision
freedom. -/
theorem positional_roundtrip (doc : List Char) (es : List Entity)
    (hdoc : bracketFree doc = true)
    (hspan : ∀ e ∈ es, e.start < e.stop ∧ e.stop ≤ doc.length ∧
      jsSlice doc e.start e.stop = e.text)
    (hdisj : es.Pairwise (fun a b => a.stop ≤ b.start ∨ b.stop ≤ a.start))
    (hlabel : ∀ e ∈ es, noBrackets e.label.toList = true)
    (hcoll : ∀ e1 ∈ es, ∀ e2 ∈ es,
      makePlaceholder e1.label e1.text = makePlaceholder e2.label e2.text →
        e1.text = e2.text) :
    unredactPositional (redactHandle doc es).2 (redactHandle doc es).1 =
      doc := by
  have hperm := stableSort_perm (fun a b => b.start < a.start) es
  have hspan' : ∀ e ∈ stableSort (fun a b => b.start < a.start) es,
      e.start < e.stop ∧ e.stop ≤ doc.length ∧
        jsSlice doc e.start e.stop = e.text :=
    fun e he => hspan e (hperm.mem_iff.mp he)
  have hlabel' : ∀ e ∈ stableSort (fun a b => b.start < a.start) es,
      noBrackets e.label.toList = true :=
    fun e he => hlabel e (hperm.mem_iff.mp he)
  have hsorted : (stableSort (fun a b => b.start < a.start) es).Pairwise
      (fun a b => b.start ≤ a.start) := by
    apply stableSort_pairwise
    · intro a b h
      exact Nat.le_of_lt (of_decide_eq_true h)
    · intro a b h
      have := of_decide_eq_false h
      omega
    · intro a b c h1 h2
      omega
  have hdisj' : (stableSort (fun a b => b.start < a.start) es).Pairwise
      (fun a b => a.stop ≤ b.start ∨ b.stop ≤ a.start) :=
    (hperm.pairwise_iff (fun hab => hab.symm)).mpr hdisj
  have hpw : (stableSort (fun a b => b.start < a.start) es).Pairwise
      (fun a b => b.stop ≤ a.start) := by
    refine List.Pairwise.imp_of_mem ?_ (hsorted.and hdisj')
    intro a b ha hb hr
    have h1 := (hspan' a ha).1
    have h2 := (hspan' b hb).1
    rcases hr.2 with h | h
    · omega
    · exact h
  have hout : (redactHandle doc es).1 =
      renderPSegs (buildPSegs doc
        (stableSort (fun a b => b.start < a.start) es)) := by
    rw [redactHandle]
    exact redactHandle_fold_segs _ doc [] hpw
      (fun e he => Nat.le_of_lt (hspan' e he).1)
      (fun e he => (hspan' e he).2.1)
  have hmap : (redactHandle doc es).2 =
      (stableSort (fun a b => b.start < a.start) es).foldl recordPh [] := by
    rw [redactHandle]
    exact redactHandle_fold_map _ doc []
  rw [hout, hmap, unredactPositional]
  rw [foldl_replaceAllLit_segs _ _
    (buildPSegs_wf _ doc hdoc hlabel')
    (by
      intro p hp
      rcases mem_foldl_recordPh _ [] p hp with h | ⟨e, he, hpe⟩
      · exact absurd h (List.not_mem_nil p)
      · rw [hpe]
        refine ⟨⟨phKey e, makePlaceholder_shape e, noBrackets_phKey e
          (hlabel' e he)⟩, ?_⟩
        have hex := (hspan' e he).2.2
        rw [← hex, jsSlice]
        exact bracketFree_sublist
          (((doc.take e.stop).drop_sublist e.start).trans
            (doc.take_sublist e.stop)) hdoc)]
  rw [renderPSegs_resolve _ _
    (by
      intro e he
      have hes : e ∈ stableSort (fun a b => b.start < a.start) es :=
        mem_ph_buildPSegs _ doc e he
      apply lookup_foldl_recordPh_mem _ [] e hes
      · intro e1 h1 heq
        exact hcoll e1 (hperm.mem_iff.mp h1) e (hperm.mem_iff.mp hes) heq
      · left
        rfl)]
  exact buildPSegs_orig _ doc hpw
    (fun e he => ⟨Nat.le_of_lt (hspan' e he).1, (hspan' e he).2⟩)

/-! ## C1 (amended), semantic half: occurrence interleavings

The original document is viewed as an interleaving of literal chunks
and designated case-exact, word-bounded occurrences of mapped entity
values.  Redaction turns each designated occurrence into its
placeholder token; the `okSegs`/`okAll` side conditions say that no
pass matches anywhere else (they fail, e.g., when a literal chunk
contains a stray word-bounded occurrence of a value, or when two
values collide case-insensitively). -/

/-- A semantic segment: a literal chunk, a designated occurrence of
the value of map key `LABEL_ID` (written `L`, `I`) under a variant, or
an already-redacted occurrence (rendered as the token). -/
inductive SSeg where
  | lit (cs : List Char)
  | occ (L I V : List Char)
  | tokd (L I V : List Char)

/-- The document text of an occurrence: the entry's value for the
variant (the needle the corresponding pass replaces). -/
def occValue (m : RedactionMap) (key : String) (variant : List Char) :
    List Char :=
  match List.lookup key m with
  | some e =>
    if variant = "FIRST".toList then e.first.getD []
    else if variant = "LAST".toList then e.last.getD []
    else e.full
  | none => []

def renderSSeg (m : RedactionMap) : SSeg → List Char
  | .lit cs => cs
  | .occ L I V => occValue m (keyOfTok L I) V
  | .tokd L I V => renderTok L I V

def renderSSegs (m : RedactionMap) (segs : List SSeg) : List Char :=
  (segs.map (renderSSeg m)).flatten

/-- The scanner's match test at a position: the very condition of
`replaceWBGo`. -/
def wbTest (ci : Bool) (needle : List Char) (prev : Option Char) :
    List Char → Bool
  | [] => false
  | c :: rest =>
    matchPrefix ci needle (c :: rest) &&
    (isWordOpt prev != isWordChar c) &&
    (isWordChar (((c :: rest).take needle.length).getLastD c)
      != isWordOpt ((c :: rest).drop needle.length).head?)

/-- No match of `needle` starts at any position of `cs` (scanned with
the given preceding character, continuing into `rest`). -/
def noWbIn (ci : Bool) (needle : List Char) :
    Option Char → List Char → List Char → Bool
  | _, [], _ => true
  | prev, c :: cs, rest =>
    !(wbTest ci needle prev (c :: (cs ++ rest))) &&
      noWbIn ci needle (some c) cs rest

/-- The character preceding the scan position after passing `cs`. -/
def lastOpt (cs : List Char) (prev : Option Char) : Option Char :=
  match cs.getLast? with
  | some c => some c
  | none => prev

/-- Whether this pass's needle is this occurrence's value. -/
def isActive (m : RedactionMap) (n : List Char) : SSeg → Bool
  | .occ L I V => occValue m (keyOfTok L I) V = n
  | _ => false

def markDone : SSeg → SSeg
  | .occ L I V => .tokd L I V
  | s => s

/-- What one word-boundary pass does to one segment. -/
def applySemPass (m : RedactionMap) (n : List Char) (seg : SSeg) : SSeg :=
  if isActive m n seg then markDone seg else seg

/-- The side conditions under which one pass acts segment-wise: active
occurrences sit on word boundaries and their token is the pass's
replacement; everything else admits no match. -/
def okSegs (ci : Bool) (m : RedactionMap) (n repl : List Char) :
    Option Char → List SSeg → Bool
  | _, [] => true
  | prev, seg :: rest =>
    if isActive m n seg then
      (isWordOpt prev = false) &&
      (isWordOpt (renderSSegs m rest).head? = false) &&
      (renderSSeg m (markDone seg) = repl) &&
      okSegs ci m n repl (lastOpt n prev) rest
    else
      noWbIn ci n prev (renderSSeg m seg) (renderSSegs m rest) &&
      okSegs ci m n repl (lastOpt (renderSSeg m seg) prev) rest

/-- The side conditions for a whole pass list, threading the
segment-wise effect of each pass. -/
def okAll (ci : Bool) (m : RedactionMap) :
    List (List Char × List Char) → List SSeg → Bool
  | [], _ => true
  | (n, r) :: ps, segs =>
    (!n.isEmpty) && isWordOpt n.head? && isWordOpt n.getLast? &&
    okSegs ci m n r none segs &&
    okAll ci m ps (segs.map (applySemPass m n))

/-- The `(needle, replacement)` passes `redactTextSemantic` runs for
one map entry. -/
def passesOfEntry (options : RedactOptions) (p : String × RedactionEntry) :
    List (List Char × List Char) :=
  (p.2.full, placeholderSem p.1 ("FULL".toList)) ::
  (if p.2.label = "PERSON" ∧ options.redactPersonFirstLast then
     (if ¬ (p.2.first.getD []).isEmpty ∧ p.2.first.getD [] ≠ p.2.full then
        [(p.2.first.getD [], placeholderSem p.1 ("FIRST".toList))]
      else []) ++
     (if ¬ (p.2.last.getD []).isEmpty ∧ p.2.last.getD [] ≠ p.2.full then
        [(p.2.last.getD [], placeholderSem p.1 ("LAST".toList))]
      else [])
   else [])

def passList (options : RedactOptions) :
    List (String × RedactionEntry) → List (List Char × List Char)
  | [] => []
  | p :: rest => passesOfEntry options p ++ passList options rest

/-- The redacted form of a segment, as a token interleaving. -/
def toUSeg : SSeg → USeg
  | .lit cs => .lit cs
  | .occ L I V => .tok L I V
  | .tokd L I V => .tok L I V

/-- Well-formedness of an original-document segment: chunks `[`-free;
occurrences carry a well-formed token shape whose key is in the map,
and a variant the redactor actually runs a pass for (`FIRST`/`LAST`
only for `PERSON` entries with that part present, non-empty and
different from `full`). -/
def ssegWF (m : RedactionMap) : SSeg → Bool
  | .lit cs => bracketFree cs
  | .occ L I V =>
    (!L.isEmpty) && L.all isUpperAlpha && decide (2 ≤ I.length) &&
    I.all isHexUp &&
    (match List.lookup (keyOfTok L I) m with
     | none => false
     | some e =>
       if V = "FULL".toList then true
       else if V = "FIRST".toList then
         (e.label = "PERSON" : Bool) &&
         (match e.first with
          | some f => (!f.isEmpty) && decide (f ≠ e.full)
          | none => false)
       else if V = "LAST".toList then
         (e.label = "PERSON" : Bool) &&
         (match e.last with
          | some l => (!l.isEmpty) && decide (l ≠ e.full)
          | none => false)
       else false)
  | .tokd _ _ _ => false

def ssegsWF (m : RedactionMap) (segs : List SSeg) : Bool :=
  segs.all (ssegWF m)

/-! ### Word-boundary scanner lemmas -/

theorem replaceWBGo_empty (ci : Bool) (n repl : List Char) :
    ∀ (f : Nat) (prev : Option Char),
      replaceWBGo ci n repl f prev [] = [] := by
  intro f prev; cases f <;> rfl

theorem matchEq_refl (ci : Bool) (a : Char) : matchEq ci a a = true := by
  rw [matchEq]
  cases ci <;> simp

theorem matchPrefix_append_self (ci : Bool) :
    ∀ (n r : List Char), matchPrefix ci n (n ++ r) = true := by
  intro n
  induction n with
  | nil => intro r; rfl
  | cons a as ih =>
    intro r
    rw [List.cons_append, matchPrefix, matchEq_refl, Bool.true_and]
    exact ih r

theorem lastOpt_cons (c : Char) (cs : List Char) (prev : Option Char) :
    lastOpt (c :: cs) prev = lastOpt cs (some c) := by
  cases cs with
  | nil => rfl
  | cons d ds =>
    rw [lastOpt, lastOpt, List.getLast?_cons_cons]
    rcases h : (d :: ds).getLast? with _ | g
    · rw [List.getLast?_eq_none_iff] at h
      exact absurd h (by simp)
    · rfl

theorem wbTest_iff (ci : Bool) (n : List Char) (prev : Option Char)
    (c : Char) (rest : List Char) :
    wbTest ci n prev (c :: rest) = true ↔
      (matchPrefix ci n (c :: rest) = true ∧
        isWordOpt prev ≠ isWordChar c ∧
        isWordChar (((c :: rest).take n.length).getLastD c) ≠
          isWordOpt ((c :: rest).drop n.length).head?) := by
  rw [wbTest]
  simp [Bool.and_eq_true, bne_iff_ne, and_assoc]

/-- Scanning a chunk in which no match starts copies it verbatim. -/
theorem replaceWBGo_noWb (ci : Bool) (n repl : List Char) :
    ∀ (cs : List Char) (prev : Option Char) (rest : List Char) (f : Nat),
      noWbIn ci n prev cs rest = true →
      replaceWBGo ci n repl (cs.length + f) prev (cs ++ rest) =
        cs ++ replaceWBGo ci n repl f (lastOpt cs prev) rest := by
  intro cs
  induction cs with
  | nil =>
    intro prev rest f _
    rw [List.length_nil, Nat.zero_add, List.nil_append, List.nil_append]
    rfl
  | cons c cs ih =>
    intro prev rest f h
    rw [noWbIn, Bool.and_eq_true, Bool.not_eq_true'] at h
    have hf : (c :: cs).length + f = (cs.length + f) + 1 := by
      rw [List.length_cons]; omega
    rw [hf, List.cons_append, replaceWBGo]
    rw [if_neg (fun hp => by
      rw [(wbTest_iff ci n prev c (cs ++ rest)).mpr hp] at h
      exact Bool.true_eq_false.mp h.1)]
    rw [ih (some c) rest f h.2, lastOpt_cons, List.cons_append]

/-- At a word-bounded exact occurrence of the needle the scanner
substitutes the replacement and continues after it. -/
theorem replaceWBGo_wbMatch (ci : Bool) (repl : List Char) (a : Char)
    (as : List Char) (prev : Option Char) (rest : List Char) (f : Nat)
    (hh : isWordChar a = true)
    (hl : isWordOpt ((a :: as).getLast?) = true)
    (hprev : isWordOpt prev = false)
    (hrest : isWordOpt rest.head? = false) :
    replaceWBGo ci (a :: as) repl (f + 1) prev ((a :: as) ++ rest) =
      repl ++ replaceWBGo ci (a :: as) repl f (lastOpt (a :: as) prev)
        rest := by
  rcases hg : (a :: as).getLast? with _ | g
  · rw [List.getLast?_eq_none_iff] at hg
    exact absurd hg (by simp)
  have hgd : (a :: as).getLastD a = g := by
    rw [List.getLastD_eq_getLast?, hg, Option.getD_some]
  have htake : (a :: (as ++ rest)).take (a :: as).length = a :: as := by
    rw [← List.cons_append]
    exact List.take_left _ _
  have hdrop : (a :: (as ++ rest)).drop (a :: as).length = rest := by
    rw [← List.cons_append]
    exact List.drop_left _ _
  rw [List.cons_append, replaceWBGo]
  rw [if_pos ⟨by
      rw [← List.cons_append]
      exact matchPrefix_append_self ci (a :: as) rest, by
      rw [hprev, hh]
      exact fun hx => Bool.false_ne_true hx, by
      rw [htake, hdrop, hgd]
      rw [hg] at hl
      rw [show isWordOpt (some g) = isWordChar g from rfl] at hl
      rw [hl, hrest]
      exact fun hx => Bool.true_eq_false.mp hx⟩]
  rw [htake, hdrop, hgd]
  rw [show lastOpt (a :: as) prev = some g from by rw [lastOpt, hg]]

/-- One word-boundary pass acts segment-wise under the `okSegs` side
conditions. -/
theorem wbPass_segs (ci : Bool) (m : RedactionMap) (n repl : List Char)
    (hne : n ≠ []) (hh : isWordOpt n.head? = true)
    (hl : isWordOpt n.getLast? = true) :
    ∀ (segs : List SSeg) (prev : Option Char) (f : Nat),
      okSegs ci m n repl prev segs = true →
      (renderSSegs m segs).length ≤ f →
      replaceWBGo ci n repl f prev (renderSSegs m segs) =
        renderSSegs m (segs.map (applySemPass m n)) := by
  intro segs
  induction segs with
  | nil =>
    intro prev f _ _
    rw [show renderSSegs m [] = [] from rfl, replaceWBGo_empty]
    rfl
  | cons seg rest ih =>
    intro prev f hok hf
    have hrender : renderSSegs m (seg :: rest) =
        renderSSeg m seg ++ renderSSegs m rest := by
      simp [renderSSegs]
    rw [hrender] at hf ⊢
    rw [okSegs] at hok
    by_cases hact : isActive m n seg = true
    · rw [if_pos hact] at hok
      simp only [Bool.and_eq_true, decide_eq_true_eq] at hok
      obtain ⟨⟨⟨hprev, hrrest⟩, hrepl⟩, hoks⟩ := hok
      cases seg with
      | lit cs => simp [isActive] at hact
      | tokd L I V => simp [isActive] at hact
      | occ L I V =>
        have hval : occValue m (keyOfTok L I) V = n := by
          rw [isActive] at hact
          exact of_decide_eq_true hact
        have hsegval : renderSSeg m (SSeg.occ L I V) = n := hval
        rw [hsegval] at hf ⊢
        obtain ⟨a, as, rfl⟩ : ∃ a as, n = a :: as := by
          cases n with
          | nil => exact absurd rfl hne
          | cons a as => exact ⟨a, as, rfl⟩
        · have hf1 : f = (f - 1) + 1 := by
            rw [List.length_append, List.length_cons] at hf
            omega
          rw [hf1, replaceWBGo_wbMatch ci repl a as prev _ (f - 1)
            (by rw [show (a :: as).head? = some a from rfl] at hh; exact hh)
            hl hprev hrrest]
          rw [ih (lastOpt (a :: as) prev) (f - 1) hoks (by
            rw [List.length_append, List.length_cons] at hf
            omega)]
          rw [List.map_cons]
          rw [show applySemPass m (a :: as) (SSeg.occ L I V) =
            markDone (SSeg.occ L I V) from by
              rw [applySemPass, if_pos hact]]
          rw [show renderSSegs m (markDone (SSeg.occ L I V) ::
            rest.map (applySemPass m (a :: as))) =
            renderSSeg m (markDone (SSeg.occ L I V)) ++
              renderSSegs m (rest.map (applySemPass m (a :: as))) from by
            simp [renderSSegs]]
          rw [hrepl]
    · rw [if_neg hact] at hok
      rw [Bool.and_eq_true] at hok
      obtain ⟨hnowb, hoks⟩ := hok
      have hfuel : f = (renderSSeg m seg).length +
          (f - (renderSSeg m seg).length) := by
        rw [List.length_append] at hf
        omega
      rw [hfuel, replaceWBGo_noWb ci n repl (renderSSeg m seg) prev
        (renderSSegs m rest) _ hnowb]
      rw [ih (lastOpt (renderSSeg m seg) prev) _ hoks (by
        rw [List.length_append] at hf
        omega)]
      rw [List.map_cons]
      rw [show applySemPass m n seg = seg from by
        rw [applySemPass, if_neg hact]]
      rw [show renderSSegs m (seg :: rest.map (applySemPass m n)) =
        renderSSeg m seg ++ renderSSegs m (rest.map (applySemPass m n))
        from by simp [renderSSegs]]

/-- The whole sequence of passes acts segment-wise under `okAll`. -/
theorem wbPasses_fold (ci : Bool) (m : RedactionMap) :
    ∀ (ps : List (List Char × List Char)) (segs : List SSeg),
      okAll ci m ps segs = true →
      ps.foldl (fun out q => replaceAllWordBoundary out q.1 q.2 ci)
          (renderSSegs m segs) =
        renderSSegs m
          (ps.foldl (fun sgs q => sgs.map (applySemPass m q.1)) segs) := by
  intro ps
  induction ps with
  | nil => intro segs _; rfl
  | cons q ps ih =>
    intro segs hok
    rcases q with ⟨n, r⟩
    rw [okAll] at hok
    simp only [Bool.and_eq_true] at hok
    obtain ⟨⟨⟨⟨h1, h2⟩, h3⟩, h4⟩, h5⟩ := hok
    have hne : n ≠ [] := by
      intro hnil
      rw [hnil] at h1
      simp at h1
    rw [List.foldl_cons, List.foldl_cons]
    rw [show replaceAllWordBoundary (renderSSegs m segs) (n, r).1 (n, r).2 ci
        = replaceWBGo ci n r (renderSSegs m segs).length none
            (renderSSegs m segs) from by
      rw [replaceAllWordBoundary, if_neg (by
        rw [show (n, r).1.isEmpty = n.isEmpty from rfl,
          show n.isEmpty = false from by
            rw [Bool.not_eq_true'] at h1
            exact h1]
        exact Bool.false_ne_true)]]
    rw [wbPass_segs ci m n r hne h2 h3 segs none _ h4 (le_refl _)]
    exact ih _ h5

theorem foldl_map_comm {α β : Type} (F : β → α → α) :
    ∀ (ps : List β) (xs : List α),
      ps.foldl (fun l q => l.map (F q)) xs =
        xs.map (fun x => ps.foldl (fun x q => F q x) x) := by
  intro ps
  induction ps with
  | nil => intro xs; simp
  | cons p ps ih =>
    intro xs
    rw [List.foldl_cons, ih (xs.map (F p)), List.map_map]
    rfl

theorem foldl_applySemPass_lit (m : RedactionMap) (cs : List Char) :
    ∀ ps : List (List Char × List Char),
      ps.foldl (fun sg q => applySemPass m q.1 sg) (SSeg.lit cs) =
        SSeg.lit cs := by
  intro ps
  induction ps with
  | nil => rfl
  | cons q ps ih =>
    rw [List.foldl_cons, show applySemPass m q.1 (SSeg.lit cs) = SSeg.lit cs
      from by
        rw [applySemPass, if_neg (by
          rw [show isActive m q.1 (SSeg.lit cs) = false from rfl]
          exact Bool.false_ne_true)]]
    exact ih

theorem foldl_applySemPass_tokd (m : RedactionMap) (L I V : List Char) :
    ∀ ps : List (List Char × List Char),
      ps.foldl (fun sg q => applySemPass m q.1 sg) (SSeg.tokd L I V) =
        SSeg.tokd L I V := by
  intro ps
  induction ps with
  | nil => rfl
  | cons q ps ih =>
    rw [List.foldl_cons, show applySemPass m q.1 (SSeg.tokd L I V) =
      SSeg.tokd L I V from by
        rw [applySemPass, if_neg (by
          rw [show isActive m q.1 (SSeg.tokd L I V) = false from rfl]
          exact Bool.false_ne_true)]]
    exact ih

theorem foldl_applySemPass_occ (m : RedactionMap) (L I V : List Char) :
    ∀ ps : List (List Char × List Char),
      (∃ r, (occValue m (keyOfTok L I) V, r) ∈ ps) →
      ps.foldl (fun sg q => applySemPass m q.1 sg) (SSeg.occ L I V) =
        SSeg.tokd L I V := by
  intro ps
  induction ps with
  | nil =>
    rintro ⟨r, hr⟩
    exact absurd hr (List.not_mem_nil _)
  | cons q ps ih =>
    rintro ⟨r, hr⟩
    rcases q with ⟨n, r0⟩
    rw [List.foldl_cons]
    by_cases h : occValue m (keyOfTok L I) V = n
    · rw [show applySemPass m (n, r0).1 (SSeg.occ L I V) = SSeg.tokd L I V
        from by
          rw [applySemPass, if_pos (by
            rw [show isActive m (n, r0).1 (SSeg.occ L I V) =
              decide (occValue m (keyOfTok L I) V = n) from rfl]
            exact decide_eq_true h)]
          rfl]
      exact foldl_applySemPass_tokd m L I V ps
    · rw [show applySemPass m (n, r0).1 (SSeg.occ L I V) = SSeg.occ L I V
        from by
          rw [applySemPass, if_neg (by
            rw [show isActive m (n, r0).1 (SSeg.occ L I V) =
              decide (occValue m (keyOfTok L I) V = n) from rfl]
            intro hx
            exact h (of_decide_eq_true hx))]]
      apply ih
      rcases List.mem_cons.mp hr with h1 | h1
      · exfalso
        have : occValue m (keyOfTok L I) V = n := congrArg Prod.fst h1
        exact h this
      · exact ⟨r, h1⟩

/-- One entry's loop body equals folding its pass list. -/
theorem semRedactEntry_passes (options : RedactOptions) (out : List Char)
    (p : String × RedactionEntry) :
    semRedactEntry options out p =
      (passesOfEntry options p).foldl
        (fun o q => replaceAllWordBoundary o q.1 q.2 options.caseInsensitive)
        out := by
  rw [semRedactEntry, passesOfEntry]
  simp only []
  by_cases hP : p.2.label = "PERSON" ∧ options.redactPersonFirstLast = true
  · rw [if_pos hP, if_pos hP]
    by_cases hF : ¬ (p.2.first.getD []).isEmpty = true ∧
        p.2.first.getD [] ≠ p.2.full
    · rw [if_pos hF, if_pos hF]
      by_cases hL : ¬ (p.2.last.getD []).isEmpty = true ∧
          p.2.last.getD [] ≠ p.2.full
      · rw [if_pos hL, if_pos hL]
        rfl
      · rw [if_neg hL, if_neg hL]
        rfl
    · rw [if_neg hF, if_neg hF]
      by_cases hL : ¬ (p.2.last.getD []).isEmpty = true ∧
          p.2.last.getD [] ≠ p.2.full
      · rw [if_pos hL, if_pos hL]
        rfl
      · rw [if_neg hL, if_neg hL]
        rfl
  · rw [if_neg hP, if_neg hP]
    rfl

/-- The entry loop equals one fold over the flattened pass list. -/
theorem foldl_passList (options : RedactOptions) :
    ∀ (entries : List (String × RedactionEntry)) (t : List Char),
      entries.foldl (semRedactEntry options) t =
        (passList options entries).foldl
          (fun o q => replaceAllWordBoundary o q.1 q.2 options.caseInsensitive)
          t := by
  intro entries
  induction entries with
  | nil => intro t; rfl
  | cons p rest ih =>
    intro t
    rw [List.foldl_cons, passList, List.foldl_append, ih,
      semRedactEntry_passes]

/-- Membership in the flattened pass list. -/
theorem mem_passList (options : RedactOptions) :
    ∀ (entries : List (String × RedactionEntry))
      (p : String × RedactionEntry)
      (q : List Char × List Char),
      p ∈ entries → q ∈ passesOfEntry options p →
      q ∈ passList options entries := by
  intro entries
  induction entries with
  | nil =>
    intro p q hp _
    exact absurd hp (List.not_mem_nil p)
  | cons p0 rest ih =>
    intro p q hp hq
    rw [passList, List.mem_append]
    rcases List.mem_cons.mp hp with h | h
    · left
      rw [← h]
      exact hq
    · right
      exact ih p q h hq

/-- Unpacking occurrence well-formedness: token shape, map entry, and
the variant's value. -/
theorem ssegWF_occ_spec (m : RedactionMap) (L I V : List Char)
    (h : ssegWF m (SSeg.occ L I V) = true) :
    L ≠ [] ∧ L.all isUpperAlpha = true ∧ 2 ≤ I.length ∧
    I.all isHexUp = true ∧
    ∃ e, List.lookup (keyOfTok L I) m = some e ∧
      ((V = "FULL".toList ∧ occValue m (keyOfTok L I) V = e.full) ∨
       (V = "FIRST".toList ∧ e.label = "PERSON" ∧
         ∃ f, e.first = some f ∧ f.isEmpty = false ∧ f ≠ e.full ∧
           occValue m (keyOfTok L I) V = f) ∨
       (V = "LAST".toList ∧ e.label = "PERSON" ∧
         ∃ l, e.last = some l ∧ l.isEmpty = false ∧ l ≠ e.full ∧
           occValue m (keyOfTok L I) V = l)) := by
  rw [ssegWF] at h
  simp only [Bool.and_eq_true] at h
  obtain ⟨⟨⟨⟨hL, hLa⟩, hI⟩, hIa⟩, hrest⟩ := h
  refine ⟨by simpa using hL, hLa, by simpa using hI, hIa, ?_⟩
  rcases hlk : List.lookup (keyOfTok L I) m with _ | e
  · rw [hlk] at hrest
    simp at hrest
  rw [hlk] at hrest
  simp only [] at hrest
  refine ⟨e, rfl, ?_⟩
  have hocc : occValue m (keyOfTok L I) V =
      (if V = "FIRST".toList then e.first.getD []
       else if V = "LAST".toList then e.last.getD [] else e.full) := by
    rw [occValue, hlk]
  by_cases hVF : V = "FULL".toList
  · left
    refine ⟨hVF, ?_⟩
    rw [hocc, hVF, if_neg (by decide), if_neg (by decide)]
  · rw [if_neg hVF] at hrest
    by_cases hV1 : V = "FIRST".toList
    · right; left
      rw [if_pos hV1, Bool.and_eq_true] at hrest
      rcases hf : e.first with _ | f
      · rw [hf] at hrest
        simp at hrest
      rw [hf] at hrest
      have h2 := hrest.2
      rw [Bool.and_eq_true] at h2
      refine ⟨hV1, by simpa using hrest.1, f, rfl, ?_, of_decide_eq_true h2.2, ?_⟩
      · rcases hemp : f.isEmpty with _ | _
        · rfl
        · rw [hemp] at h2
          simp at h2
      · rw [hocc, if_pos hV1, hf, Option.getD_some]
    · rw [if_neg hV1] at hrest
      by_cases hV2 : V = "LAST".toList
      · right; right
        rw [if_pos hV2, Bool.and_eq_true] at hrest
        rcases hf : e.last with _ | l
        · rw [hf] at hrest
          simp at hrest
        rw [hf] at hrest
        have h2 := hrest.2
        rw [Bool.and_eq_true] at h2
        refine ⟨hV2, by simpa using hrest.1, l, rfl, ?_, of_decide_eq_true h2.2, ?_⟩
        · rcases hemp : l.isEmpty with _ | _
          · rfl
          · rw [hemp] at h2
            simp at h2
        · rw [hocc, if_neg (by rw [hV2]; decide), if_pos hV2, hf,
            Option.getD_some]
      · rw [if_neg hV2] at hrest
        simp at hrest

/-- The redacted interleaving is a well-formed token interleaving. -/
theorem toUSeg_wf (m : RedactionMap) :
    ∀ segs : List SSeg, ssegsWF m segs = true →
      segsWF (segs.map toUSeg) = true := by
  intro segs
  induction segs with
  | nil => intro _; rfl
  | cons seg rest ih =>
    intro h
    rw [ssegsWF, List.all_cons, Bool.and_eq_true] at h
    rw [List.map_cons, segsWF, List.all_cons, Bool.and_eq_true]
    refine ⟨?_, ih h.2⟩
    cases seg with
    | lit cs => exact h.1
    | occ L I V =>
      obtain ⟨hL, hLa, hI, hIa, e, hlk, hvar⟩ := ssegWF_occ_spec m L I V h.1
      rw [show toUSeg (SSeg.occ L I V) = USeg.tok L I V from rfl, segWF]
      simp only [Bool.and_eq_true, decide_eq_true_eq]
      refine ⟨fun hx => hL (by simpa using hx), hLa, hI, hIa, ?_⟩
      rcases hvar with ⟨hV, _⟩ | ⟨hV, _⟩ | ⟨hV, _⟩
      · exact Or.inl hV
      · exact Or.inr (Or.inl hV)
      · exact Or.inr (Or.inr hV)
    | tokd L I V =>
      rw [show ssegWF m (SSeg.tokd L I V) = false from rfl] at h
      exact absurd h.1 (by simp)

/-- Every well-formed occurrence has a pass in the flattened pass
list whose needle is its value. -/
theorem occ_pass_mem (m : RedactionMap)
    (entries : List (String × RedactionEntry))
    (hent : ∀ p : String × RedactionEntry, p ∈ m → p ∈ entries)
    (options : RedactOptions) (hPF : options.redactPersonFirstLast = true)
    (L I V : List Char) (hwf : ssegWF m (SSeg.occ L I V) = true) :
    ∃ r, (occValue m (keyOfTok L I) V, r) ∈ passList options entries := by
  obtain ⟨hL, hLa, hI, hIa, e, hlk, hvar⟩ := ssegWF_occ_spec m L I V hwf
  have hmem : (keyOfTok L I, e) ∈ entries :=
    hent _ (mem_of_lookup_eq_some hlk)
  rcases hvar with ⟨hV, hval⟩ | ⟨hV, hP, f, hf, hfe, hff, hval⟩ |
    ⟨hV, hP, l, hl, hle, hlf, hval⟩
  · refine ⟨placeholderSem (keyOfTok L I) ("FULL".toList), ?_⟩
    apply mem_passList options entries (keyOfTok L I, e) _ hmem
    rw [passesOfEntry, hval]
    exact List.mem_cons_self _ _
  · refine ⟨placeholderSem (keyOfTok L I) ("FIRST".toList), ?_⟩
    apply mem_passList options entries (keyOfTok L I, e) _ hmem
    rw [passesOfEntry, hval]
    apply List.mem_cons_of_mem
    rw [if_pos ⟨hP, hPF⟩, List.mem_append]
    left
    rw [show (keyOfTok L I, e).2.first.getD [] = f from by
      rw [hf, Option.getD_some]]
    rw [if_pos ⟨by rw [hfe]; exact Bool.false_ne_true, hff⟩]
    exact List.mem_singleton.mpr rfl
  · refine ⟨placeholderSem (keyOfTok L I) ("LAST".toList), ?_⟩
    apply mem_passList options entries (keyOfTok L I, e) _ hmem
    rw [passesOfEntry, hval]
    apply List.mem_cons_of_mem
    rw [if_pos ⟨hP, hPF⟩, List.mem_append]
    right
    rw [show (keyOfTok L I, e).2.last.getD [] = l from by
      rw [hl, Option.getD_some]]
    rw [if_pos ⟨by rw [hle]; exact Bool.false_ne_true, hlf⟩]
    exact List.mem_singleton.mpr rfl

/-- After all passes, every designated occurrence has become its
token and the result renders as the token interleaving. -/
theorem redactedSegs_render (m : RedactionMap)
    (ps : List (List Char × List Char)) :
    ∀ segs : List SSeg, ssegsWF m segs = true →
      (∀ L I V, SSeg.occ L I V ∈ segs →
        ∃ r, (occValue m (keyOfTok L I) V, r) ∈ ps) →
      renderSSegs m (segs.map
          (fun sg => ps.foldl (fun sg q => applySemPass m q.1 sg) sg)) =
        renderSegs (segs.map toUSeg) := by
  intro segs
  induction segs with
  | nil => intro _ _; rfl
  | cons seg rest ih =>
    intro hwf hocc
    rw [ssegsWF, List.all_cons, Bool.and_eq_true] at hwf
    rw [List.map_cons, List.map_cons]
    rw [show renderSSegs m ((ps.foldl (fun sg q => applySemPass m q.1 sg) seg)
      :: rest.map (fun sg => ps.foldl (fun sg q => applySemPass m q.1 sg) sg))
      = renderSSeg m (ps.foldl (fun sg q => applySemPass m q.1 sg) seg) ++
        renderSSegs m (rest.map
          (fun sg => ps.foldl (fun sg q => applySemPass m q.1 sg) sg))
      from by simp [renderSSegs]]
    rw [show renderSegs (toUSeg seg :: rest.map toUSeg) =
      renderSeg (toUSeg seg) ++ renderSegs (rest.map toUSeg) from by
      simp [renderSegs]]
    rw [ih hwf.2 (fun L I V hm => hocc L I V (List.mem_cons_of_mem seg hm))]
    congr 1
    cases seg with
    | lit cs => rw [foldl_applySemPass_lit]; rfl
    | occ L I V =>
      rw [foldl_applySemPass_occ m L I V ps
        (hocc L I V (List.mem_cons_self _ _))]
      rfl
    | tokd L I V =>
      rw [show ssegWF m (SSeg.tokd L I V) = false from rfl] at hwf
      exact absurd hwf.1 (by simp)

/-- `buildLookup` preserves keys. -/
theorem lookup_buildLookup (k : String) :
    ∀ m : RedactionMap,
      List.lookup k (buildLookup m) =
        (List.lookup k m).map (fun e =>
          ((e.full,
            match e.first with
            | some f => if f.isEmpty then none else some f
            | none => none,
            match e.last with
            | some l => if l.isEmpty then none else some l
            | none => none) : Variants)) := by
  intro m
  induction m with
  | nil => rfl
  | cons p rest ih =>
    rw [buildLookup, List.map_cons, List.lookup_cons, List.lookup_cons]
    cases hbe : k == p.1 with
    | true => rfl
    | false => exact ih

/-- Unredacting the token interleaving restores each occurrence's
value and each chunk verbatim. -/
theorem resolve_restore (m : RedactionMap) :
    ∀ segs : List SSeg, ssegsWF m segs = true →
      ((segs.map toUSeg).map (resolveSeg (buildLookup m))).flatten =
        renderSSegs m segs := by
  intro segs
  induction segs with
  | nil => intro _; rfl
  | cons seg rest ih =>
    intro hwf
    rw [ssegsWF, List.all_cons, Bool.and_eq_true] at hwf
    rw [List.map_cons, List.map_cons, List.flatten_cons]
    rw [show renderSSegs m (seg :: rest) =
      renderSSeg m seg ++ renderSSegs m rest from by simp [renderSSegs]]
    rw [ih hwf.2]
    congr 1
    cases seg with
    | lit cs => rfl
    | occ L I V =>
      obtain ⟨hL, hLa, hI, hIa, e, hlk, hvar⟩ := ssegWF_occ_spec m L I V hwf.1
      rw [show toUSeg (SSeg.occ L I V) = USeg.tok L I V from rfl, resolveSeg]
      rw [lookup_buildLookup (keyOfTok L I) m, hlk, Option.map_some']
      simp only []
      rcases hvar with ⟨hV, hval⟩ | ⟨hV, hP, f, hf, hfe, hff, hval⟩ |
        ⟨hV, hP, l, hl, hle, hlf, hval⟩
      · rw [variantValue]
        rw [if_neg (by rw [hV]; decide), if_neg (by rw [hV]; decide)]
        rw [show renderSSeg m (SSeg.occ L I V) = occValue m (keyOfTok L I) V
          from rfl, hval]
      · rw [variantValue, if_pos hV]
        rw [show renderSSeg m (SSeg.occ L I V) = occValue m (keyOfTok L I) V
          from rfl, hval]
        rw [hf]
        simp only []
        rw [if_neg (by rw [hfe]; exact Bool.false_ne_true), Option.getD_some]
      · rw [variantValue, if_neg (by rw [hV]; decide), if_pos hV]
        rw [show renderSSeg m (SSeg.occ L I V) = occValue m (keyOfTok L I) V
          from rfl, hval]
        rw [hl]
        simp only []
        rw [if_neg (by rw [hle]; exact Bool.false_ne_true), Option.getD_some]
    | tokd L I V =>
      rw [show ssegWF m (SSeg.tokd L I V) = false from rfl] at hwf
      exact absurd hwf.1 (by simp)

/-- The semantic round trip over an occurrence interleaving. -/
theorem semantic_roundtrip (ents : List SemEntity) (segs : List SSeg)
    (hwf : ssegsWF (createRedactionMap ents) segs = true)
    (hok : okAll true (createRedactionMap ents)
      (passList c1Options
        (stableSort (fun a b => b.2.full.length < a.2.full.length)
          (createRedactionMap ents))) segs = true)
    (hlk : lookupWF (buildLookup (createRedactionMap ents)) = true)
    (hfm : extractFrontMatter
        (redactTextSemantic (renderSSegs (createRedactionMap ents) segs)
          ents c1Options).1 =
      (none,
        (redactTextSemantic (renderSSegs (createRedactionMap ents) segs)
          ents c1Options).1)) :
    (unredactTextSemantic
        (redactTextSemantic (renderSSegs (createRedactionMap ents) segs)
          ents c1Options).1
        (some (redactTextSemantic
          (renderSSegs (createRedactionMap ents) segs) ents c1Options).2)).1 =
      renderSSegs (createRedactionMap ents) segs := by
  have hred : redactTextSemantic (renderSSegs (createRedactionMap ents) segs)
      ents c1Options
      = (renderSegs (segs.map toUSeg), createRedactionMap ents) := by
    rw [redactTextSemantic]
    rw [if_neg (by decide : ¬ c1Options.embedFrontMatter = true)]
    rw [Prod.mk.injEq]
    refine ⟨?_, rfl⟩
    rw [foldl_passList c1Options _ _]
    rw [show c1Options.caseInsensitive = true from rfl]
    rw [wbPasses_fold true (createRedactionMap ents) _ segs hok]
    rw [foldl_map_comm]
    apply redactedSegs_render _ _ segs hwf
    intro L I V hmem
    apply occ_pass_mem _ _
      (fun p hp => ((stableSort_perm
        (fun a b => b.2.full.length < a.2.full.length)
        (createRedactionMap ents)).mem_iff).mpr hp)
      c1Options rfl L I V
    rw [ssegsWF, List.all_eq_true] at hwf
    exact hwf _ hmem
  have hun : (unredactTextSemantic
      (redactTextSemantic (renderSSegs (createRedactionMap ents) segs)
        ents c1Options).1
      (some (redactTextSemantic (renderSSegs (createRedactionMap ents) segs)
        ents c1Options).2)).1
      = semanticReplaceAll (buildLookup (createRedactionMap ents))
          (redactTextSemantic (renderSSegs (createRedactionMap ents) segs)
            ents c1Options).1 := by
    unfold unredactTextSemantic
    rw [hfm]
    rfl
  rw [hun, hred]
  show semanticReplaceAll (buildLookup (createRedactionMap ents))
      (renderSegs (segs.map toUSeg)) =
    renderSSegs (createRedactionMap ents) segs
  rw [semanticReplaceAll_segs _ _ (toUSeg_wf _ segs hwf) hlk,
    passes_resolve _ _ (toUSeg_wf _ segs hwf),
    resolve_restore _ segs hwf]

/-- C1 (amended): the round trip `unredact (redact doc) = doc` does
not hold unconditionally (see the counterexample), but it holds in
both modes under the stated provisos.  Positional mode — for the
reversible handler pair keying the map by the full bracketed
placeholder — requires exact, in-range, pairwise disjoint spans, a
document and labels free of bracket characters, and
placeholder-collision freedom.  Semantic mode requires the document to
be an interleaving of `[`-free literal chunks and designated
case-exact occurrences of mapped values such that no pass of the
redactor matches anywhere else (`okAll`), with `[`-free map values and
no front matter in the redacted output. -/
theorem roundtrip_amended :
    (∀ (doc : List Char) (es : List Entity),
      bracketFree doc = true →
      (∀ e ∈ es, e.start < e.stop ∧ e.stop ≤ doc.length ∧
        jsSlice doc e.start e.stop = e.text) →
      es.Pairwise (fun a b => a.stop ≤ b.start ∨ b.stop ≤ a.start) →
      (∀ e ∈ es, noBrackets e.label.toList = true) →
      (∀ e1 ∈ es, ∀ e2 ∈ es,
        makePlaceholder e1.label e1.text = makePlaceholder e2.label e2.text →
          e1.text = e2.text) →
      unredactPositional (redactHandle doc es).2 (redactHandle doc es).1 =
        doc) ∧
    (∀ (ents : List SemEntity) (segs : List SSeg),
      ssegsWF (createRedactionMap ents) segs = true →
      okAll true (createRedactionMap ents)
        (passList c1Options
          (stableSort (fun a b => b.2.full.length < a.2.full.length)
            (createRedactionMap ents))) segs = true →
      lookupWF (buildLookup (createRedactionMap ents)) = true →
      extractFrontMatter
          (redactTextSemantic (renderSSegs (createRedactionMap ents) segs)
            ents c1Options).1 =
        (none, (redactTextSemantic
          (renderSSegs (createRedactionMap ents) segs) ents c1Options).1) →
      (unredactTextSemantic
          (redactTextSemantic (renderSSegs (createRedactionMap ents) segs)
            ents c1Options).1
          (some (redactTextSemantic
            (renderSSegs (createRedactionMap ents) segs)
            ents c1Options).2)).1 =
        renderSSegs (createRedactionMap ents) segs) :=
  ⟨positional_roundtrip, semantic_roundtrip⟩

def wPosEnt : Entity :=
  { text := "Bob".toList, label := "PERSON", start := 5, stop := 8,
    score := none, source := "model" }

def wSemEnts : List SemEntity := [⟨"Alice".toList, "PERSON"⟩]

def wSegs : List SSeg :=
  [SSeg.lit ("Hi ".toList),
   SSeg.occ ("PERSON".toList) ("F174DC".toList) ("FULL".toList),
   SSeg.lit ("!".toList)]

/-- Witness for the amended round trip: `"Call Bob now"` with an exact
`PERSON` span round-trips positionally, and `"Hi Alice!"` (one
designated `FULL` occurrence) round-trips semantically. -/
theorem roundtrip_amended_witness :
    unredactPositional (redactHandle ("Call Bob now".toList) [wPosEnt]).2
        (redactHandle ("Call Bob now".toList) [wPosEnt]).1 =
      "Call Bob now".toList ∧
    (unredactTextSemantic
        (redactTextSemantic (renderSSegs (createRedactionMap wSemEnts) wSegs)
          wSemEnts c1Options).1
        (some (redactTextSemantic
          (renderSSegs (createRedactionMap wSemEnts) wSegs)
          wSemEnts c1Options).2)).1 =
      renderSSegs (createRedactionMap wSemEnts) wSegs :=
  ⟨roundtrip_amended.1 ("Call Bob now".toList) [wPosEnt] (by decide)
      (by decide) (by decide) (by decide) (by decide),
   roundtrip_amended.2 wSemEnts wSegs (by decide) (by decide) (by decide)
      rfl⟩
